import Mathlib

/-!
cmdr: a shallow embedding of the command binding engine

Go strings are modelled as byte sequences (`List Nat`, every element below 256),
Unicode data that the Go runtime reads from tables is a parameter
(`UnicodeTables`) consulted only for code points outside ASCII, and run-time
failures (`panic`, `os.Exit`) are explicit outcomes.
-/

namespace Cmdr

/-- A Go string: its bytes in order. -/
abbrev GoString := List Nat

/-- How a call ends: it returns, it panics, or it ends the process. `outOfFuel`
marks a loop of the model whose bound was too small; it is no outcome of the
program. -/
inductive Outcome (α : Type) where
  | ok (a : α)
  | panic (msg : String)
  | exit (code : Nat)
  | outOfFuel
  deriving Repr, DecidableEq

/-- Sequencing of calls: the first failure ends the computation. -/
def Outcome.bind {α β : Type} (x : Outcome α) (f : α → Outcome β) : Outcome β :=
  match x with
  | .ok a => f a
  | .panic m => .panic m
  | .exit c => .exit c
  | .outOfFuel => .outOfFuel

/-- Unicode data of the Go runtime for code points from 0x80 upwards. -/
structure UnicodeTables where
  Lu : Nat → Bool
  Ll : Nat → Bool
  Lt : Nat → Bool
  Lm : Nat → Bool
  Lo : Nat → Bool
  Nd : Nat → Bool
  toLower : Nat → Nat
  isPrint : Nat → Bool

/-- The replacement rune `utf8.RuneError`. -/
def RuneError : Nat := 0xFFFD

/-- A UTF-8 continuation byte. -/
def isCont (b : Nat) : Bool := Nat.ble 0x80 b && Nat.ble b 0xBF

/-- Lower bound of the second byte that `utf8` accepts after lead byte `b0`. -/
def acceptLo (b0 : Nat) : Nat :=
  if b0 = 0xE0 then 0xA0 else if b0 = 0xF0 then 0x90 else 0x80

/-- Upper bound of the second byte that `utf8` accepts after lead byte `b0`. -/
def acceptHi (b0 : Nat) : Nat :=
  if b0 = 0xED then 0x9F else if b0 = 0xF4 then 0x8F else 0xBF

/-- Go `utf8.DecodeRuneInString`: the first rune of `s` and its width in bytes. -/
def decodeRune : GoString → Nat × Nat
  | [] => (RuneError, 0)
  | b0 :: rest =>
    if b0 < 0x80 then (b0, 1)
    else if b0 < 0xC2 then (RuneError, 1)
    else if b0 < 0xE0 then
      match rest with
      | b1 :: _ => if isCont b1 then ((b0 % 32) * 64 + b1 % 64, 2) else (RuneError, 1)
      | _ => (RuneError, 1)
    else if b0 < 0xF0 then
      match rest with
      | b1 :: b2 :: _ =>
        if Nat.ble (acceptLo b0) b1 && Nat.ble b1 (acceptHi b0) && isCont b2 then
          ((b0 % 16) * 4096 + (b1 % 64) * 64 + b2 % 64, 3)
        else (RuneError, 1)
      | _ => (RuneError, 1)
    else if b0 < 0xF5 then
      match rest with
      | b1 :: b2 :: b3 :: _ =>
        if Nat.ble (acceptLo b0) b1 && Nat.ble b1 (acceptHi b0) && isCont b2 && isCont b3 then
          ((b0 % 8) * 262144 + (b1 % 64) * 4096 + (b2 % 64) * 64 + b3 % 64, 4)
        else (RuneError, 1)
      | _ => (RuneError, 1)
    else (RuneError, 1)

/-- Go `utf8.EncodeRune` / `utf8.AppendRune`: surrogates and values above
0x10FFFF are written as `RuneError`. -/
def encodeRune (r : Nat) : GoString :=
  if r < 0x80 then [r]
  else if r < 0x800 then [0xC0 + r / 64, 0x80 + r % 64]
  else if 0x10FFFF < r ∨ (0xD800 ≤ r ∧ r ≤ 0xDFFF) then [0xEF, 0xBF, 0xBD]
  else if r < 0x10000 then [0xE0 + r / 4096, 0x80 + (r / 64) % 64, 0x80 + r % 64]
  else [0xF0 + r / 262144, 0x80 + (r / 4096) % 64, 0x80 + (r / 64) % 64, 0x80 + r % 64]

/-- The bytes of a string literal of the source. -/
def lit (s : String) : GoString := s.data.flatMap (fun c => encodeRune c.toNat)

/-! ## Regular expressions (Go `regexp`, leftmost-first semantics) -/

/-- The syntax of the regular expressions the program uses. `cls p` matches one
rune satisfying `p`; `cap i` is capture group `i`. -/
inductive Regex where
  | cls (p : Nat → Bool)
  | cat (a b : Regex)
  | alt (a b : Regex)
  | plus (a : Regex)
  | star (a : Regex)
  | cap (i : Nat) (a : Regex)

/-- The text of each capture group; a group that took no part is empty. -/
abbrev Caps := Nat → GoString

/-- No group has matched. -/
def noCaps : Caps := fun _ => []

/-- Record text `t` for group `i`. -/
def setCap (c : Caps) (i : Nat) (t : GoString) : Caps := fun j => if j = i then t else c j

/-- Greedy repetition: as many rounds of `step` as possible first, each round
consuming input; `n` bounds the rounds by the input length. -/
def starLoop (step : GoString → Caps → List (Caps × GoString)) :
    Nat → GoString → Caps → List (Caps × GoString)
  | 0, s, c => [(c, s)]
  | n + 1, s, c =>
    ((step s c).flatMap fun x =>
      if x.2.length < s.length then starLoop step n x.2 x.1 else []) ++ [(c, s)]

/-- All ways `re` matches a prefix of `s`, in the priority order of a
backtracking search (which is the order Go prefers): the captures and the
input left over. -/
def Regex.run : Regex → GoString → Caps → List (Caps × GoString)
  | .cls p, s, c =>
    match s with
    | [] => []
    | _ :: _ => if p (decodeRune s).1 then [(c, s.drop (decodeRune s).2)] else []
  | .cat a b, s, c => (a.run s c).flatMap fun x => b.run x.2 x.1
  | .alt a b, s, c => a.run s c ++ b.run s c
  | .plus a, s, c => (a.run s c).flatMap fun x => starLoop a.run s.length x.2 x.1
  | .star a, s, c => starLoop a.run s.length s c
  | .cap i a, s, c =>
    (a.run s c).map fun x => (setCap x.1 i (s.take (s.length - x.2.length)), x.2)

/-- The preferred match of `re` at the start of `s`: its length and captures. -/
def Regex.matchAt (re : Regex) (s : GoString) : Option (Nat × Caps) :=
  ((re.run s noCaps).head?).map fun x => (s.length - x.2.length, x.1)

/-- The leftmost match of `re` in `s`, tried at rune boundaries only: the
offset `k` of its start, its length and its captures. `skip` counts the bytes
of the current rune still to step over. -/
def Regex.searchAux (re : Regex) : GoString → Nat → Nat → Option (Nat × Nat × Caps)
  | [], k, _ => (re.matchAt []).map fun m => (k, m.1, m.2)
  | _ :: t, k, skip + 1 => re.searchAux t (k + 1) skip
  | b :: t, k, 0 =>
    match re.matchAt (b :: t) with
    | some m => some (k, m.1, m.2)
    | none => re.searchAux t (k + 1) ((decodeRune (b :: t)).2 - 1)

/-- The leftmost match of `re` in `s` (offset, length, captures). -/
def Regex.search (re : Regex) (s : GoString) : Option (Nat × Nat × Caps) :=
  re.searchAux s 0 0

/-- One item of a replacement template: literal text or `$i`. -/
inductive TemplateItem where
  | text (s : GoString)
  | group (i : Nat)

/-- Go `Regexp.expand` on a template already split into its items. -/
def expand (tmpl : List TemplateItem) (c : Caps) : GoString :=
  tmpl.flatMap fun
    | .text s => s
    | .group i => c i

/-- The loop of Go `Regexp.replaceAll`: `searchPos` is where the next search
starts, `lastMatchEnd` the end of the latest match, `buf` the output so far.
The loop runs at most `len(src) + 1` times; `none` only when `fuel` is too small. -/
def replaceLoop (re : Regex) (tmpl : List TemplateItem) (src : GoString) :
    Nat → Nat → Nat → GoString → Option GoString
  | 0, _, _, _ => none
  | fuel + 1, searchPos, lastMatchEnd, buf =>
    if searchPos ≤ src.length then
      match re.search (src.drop searchPos) with
      | none => some (buf ++ src.drop lastMatchEnd)
      | some (k, l, c) =>
        let a0 := searchPos + k
        let a1 := a0 + l
        let buf := buf ++ (src.take a0).drop lastMatchEnd
        let buf := if lastMatchEnd < a1 ∨ a0 = 0 then buf ++ expand tmpl c else buf
        let width := (decodeRune (src.drop searchPos)).2
        if a1 < searchPos + width then
          replaceLoop re tmpl src fuel (searchPos + width) a1 buf
        else if a1 < searchPos + 1 then
          replaceLoop re tmpl src fuel (searchPos + 1) a1 buf
        else
          replaceLoop re tmpl src fuel a1 a1 buf
    else some (buf ++ src.drop lastMatchEnd)

/-- Go `Regexp.ReplaceAllString`. -/
def ReplaceAllString (re : Regex) (src : GoString) (tmpl : List TemplateItem) :
    Option GoString :=
  replaceLoop re tmpl src (src.length + 2) 0 0 []

/-! ## The name translator -/

/-- Class `\p{Lu}`. -/
def isLu (U : UnicodeTables) (r : Nat) : Bool :=
  if r < 0x80 then Nat.ble 65 r && Nat.ble r 90 else U.Lu r

/-- Class `[\p{Ll}\p{Lt}\p{Lm}\p{Lo}\p{Nd}]`. -/
def isLowerish (U : UnicodeTables) (r : Nat) : Bool :=
  if r < 0x80 then (Nat.ble 97 r && Nat.ble r 122) || (Nat.ble 48 r && Nat.ble r 57)
  else U.Ll r || U.Lt r || U.Lm r || U.Lo r || U.Nd r

/-- Class `[\-_]`. -/
def isSep (r : Nat) : Bool := r == 45 || r == 95

/-- Source: ``(\p{Lu}+[\p{Ll}\p{Lt}\p{Lm}\p{Lo}\p{Nd}]+)_|([\p{Lu}]+)([\p{Lu}])``. -/
def optionNameRegex1 (U : UnicodeTables) : Regex :=
  .alt
    (.cat (.cap 1 (.cat (.plus (.cls (isLu U))) (.plus (.cls (isLowerish U)))))
      (.cls fun r => r == 95))
    (.cat (.cap 2 (.plus (.cls (isLu U)))) (.cap 3 (.cls (isLu U))))

/-- Source: ``(?:([^\-_])[\-_]+|(\p{Lu}[\p{Ll}\p{Lt}\p{Lm}\p{Lo}\p{Nd}]+)[\-_]*)``. -/
def optionNameRegex2 (U : UnicodeTables) : Regex :=
  .alt
    (.cat (.cap 1 (.cls fun r => !isSep r)) (.plus (.cls isSep)))
    (.cat (.cap 2 (.cat (.cls (isLu U)) (.plus (.cls (isLowerish U))))) (.star (.cls isSep)))

/-- Go `unicode.ToLower`. -/
def toLowerRune (U : UnicodeTables) (r : Nat) : Nat :=
  if r < 0x80 then (if Nat.ble 65 r && Nat.ble r 90 then r + 32 else r) else U.toLower r

/-- Go `strings.Map`, rune by rune; `skip` counts the bytes of the current rune
still to step over. -/
def mapRunes (f : Nat → Nat) : GoString → Nat → GoString
  | [], _ => []
  | _ :: t, skip + 1 => mapRunes f t skip
  | b :: t, 0 => encodeRune (f (decodeRune (b :: t)).1) ++ mapRunes f t ((decodeRune (b :: t)).2 - 1)

/-- Go `strings.ToLower`. -/
def ToLower (U : UnicodeTables) (s : GoString) : GoString := mapRunes (toLowerRune U) s 0

/-- The source function `translateFieldName`: two replacement passes, the strip
of one trailing hyphen (`s[len(s)-1]` panics on the empty string), lowercase.
-/
def translateFieldName (U : UnicodeTables) (s : GoString) : Outcome GoString :=
  match ReplaceAllString (optionNameRegex1 U) s
      [.text (lit "-"), .group 1, .group 2, .text (lit "-"), .group 3] with
  | none => .outOfFuel
  | some s1 =>
    match ReplaceAllString (optionNameRegex2 U) s1 [.group 1, .group 2, .text (lit "-")] with
    | none => .outOfFuel
    | some s2 =>
      match s2.getLast? with
      | none => .panic "index out of range"
      | some b => .ok (ToLower U (if b = 45 then s2.dropLast else s2))

/-! ## Library functions of `strconv` and `strings` -/

/-- The error values the program can meet. -/
inductive GoError where
  | syntaxError (fn : String) (input : GoString)
  | errHelp
  | flagError (msg : String) (about : GoString)
  deriving Repr, DecidableEq

/-- Go `strconv.ParseBool`: the value (false on failure) and the error. -/
def ParseBool (str : GoString) : Bool × Option GoError :=
  if str = lit "1" ∨ str = lit "t" ∨ str = lit "T" ∨ str = lit "true" ∨ str = lit "TRUE"
      ∨ str = lit "True" then (true, none)
  else if str = lit "0" ∨ str = lit "f" ∨ str = lit "F" ∨ str = lit "false"
      ∨ str = lit "FALSE" ∨ str = lit "False" then (false, none)
  else (false, some (.syntaxError "ParseBool" str))

/-- Go `unicode.IsSpace`. -/
def isSpace (r : Nat) : Bool :=
  r == 9 || r == 10 || r == 11 || r == 12 || r == 13 || r == 32 || r == 0x85 || r == 0xA0
    || r == 0x1680 || (Nat.ble 0x2000 r && Nat.ble r 0x200A) || r == 0x2028 || r == 0x2029
    || r == 0x202F || r == 0x205F || r == 0x3000

/-- Go `utf8.RuneStart`. -/
def RuneStart (b : Nat) : Bool := !isCont b

/-- Go `utf8.DecodeLastRuneInString`: the last rune of `s` and its width. -/
def decodeLastRune (s : GoString) : Nat × Nat :=
  let n := s.length
  match s.getLast? with
  | none => (RuneError, 0)
  | some last =>
    if last < 0x80 then (last, 1)
    else
      let start :=
        if 2 ≤ n ∧ RuneStart (s.getD (n - 2) 0) then n - 2
        else if 3 ≤ n ∧ RuneStart (s.getD (n - 3) 0) then n - 3
        else if 4 ≤ n ∧ RuneStart (s.getD (n - 4) 0) then n - 4
        else n - 5
      let d := decodeRune (s.drop start)
      if start + d.2 ≠ n then (RuneError, 1) else d

/-- Go `strings.TrimLeftFunc` with `unicode.IsSpace`; `skip` counts the bytes of
a space rune still to drop. -/
def trimLeftSpace : GoString → Nat → GoString
  | [], _ => []
  | _ :: t, skip + 1 => trimLeftSpace t skip
  | b :: t, 0 =>
    if isSpace (decodeRune (b :: t)).1 then trimLeftSpace t ((decodeRune (b :: t)).2 - 1)
    else b :: t

/-- Go `strings.TrimRightFunc` with `unicode.IsSpace`; `n` bounds the rounds by
the length of the string. -/
def trimRightSpace : Nat → GoString → GoString
  | 0, s => s
  | n + 1, s =>
    match s with
    | [] => []
    | _ :: _ =>
      if isSpace (decodeLastRune s).1 then
        trimRightSpace n (s.take (s.length - (decodeLastRune s).2))
      else s

/-- Go `strings.TrimSpace`. -/
def TrimSpace (s : GoString) : GoString :=
  let t := trimLeftSpace s 0
  trimRightSpace t.length t

/-- Value of a hexadecimal digit (`strconv.unhex`). -/
def unhex (b : Nat) : Option Nat :=
  if 48 ≤ b ∧ b ≤ 57 then some (b - 48)
  else if 97 ≤ b ∧ b ≤ 102 then some (b - 97 + 10)
  else if 65 ≤ b ∧ b ≤ 70 then some (b - 65 + 10)
  else none

/-- Read `n` hexadecimal digits, most significant first, onto `v`. -/
def readHex : Nat → GoString → Nat → Option Nat
  | 0, _, v => some v
  | _ + 1, [], _ => none
  | n + 1, b :: t, v =>
    match unhex b with
    | none => none
    | some x => readHex n t (v * 16 + x)

/-- Go `utf8.ValidRune`. -/
def ValidRune (r : Nat) : Bool := r < 0xD800 || (0xDFFF < r && Nat.ble r 0x10FFFF)

/-- Go `strconv.UnquoteChar` with quote `"`: the value, whether it is a
multibyte rune, and the number of bytes read; `none` is `ErrSyntax`. -/
def UnquoteChar (s : GoString) : Option (Nat × Bool × Nat) :=
  match s with
  | [] => none
  | c :: rest =>
    if c = 34 then none
    else if 0x80 ≤ c then some ((decodeRune s).1, true, (decodeRune s).2)
    else if c ≠ 92 then some (c, false, 1)
    else
      match rest with
      | [] => none
      | e :: s2 =>
        if e = 97 then some (7, false, 2)
        else if e = 98 then some (8, false, 2)
        else if e = 102 then some (12, false, 2)
        else if e = 110 then some (10, false, 2)
        else if e = 114 then some (13, false, 2)
        else if e = 116 then some (9, false, 2)
        else if e = 118 then some (11, false, 2)
        else if e = 120 then (readHex 2 s2 0).map fun v => (v, false, 4)
        else if e = 117 then
          match readHex 4 s2 0 with
          | none => none
          | some v => if ValidRune v then some (v, true, 6) else none
        else if e = 85 then
          match readHex 8 s2 0 with
          | none => none
          | some v => if ValidRune v then some (v, true, 10) else none
        else if 48 ≤ e ∧ e ≤ 55 then
          match s2 with
          | d1 :: d2 :: _ =>
            if 48 ≤ d1 ∧ d1 ≤ 55 ∧ 48 ≤ d2 ∧ d2 ≤ 55 then
              let v := ((e - 48) * 8 + (d1 - 48)) * 8 + (d2 - 48)
              if 255 < v then none else some (v, false, 4)
            else none
          | _ => none
        else if e = 92 then some (92, false, 2)
        else if e = 34 then some (34, false, 2)
        else none

/-- The loop of Go `strconv.Unquote` after the opening quote: unquote character
by character up to the closing quote; gives the text and what follows the
closing quote. `skip` counts the bytes of the current character still to step
over; `none` is `ErrSyntax`. -/
def unquoteLoop : GoString → Nat → GoString → Option (GoString × GoString)
  | [], _, _ => none
  | _ :: t, skip + 1, buf => unquoteLoop t skip buf
  | b :: t, 0, buf =>
    if b = 34 then some (buf, t)
    else
      match UnquoteChar (b :: t) with
      | none => none
      | some (r, multibyte, n) =>
        if b = 10 then none
        else
          unquoteLoop t (n - 1)
            (buf ++ (if r < 0x80 ∨ multibyte = false then [r % 256] else encodeRune r))

/-- Go `strconv.Unquote` on a literal that opens with a double quote, the only
form the program passes; `none` is `ErrSyntax`. The shortcut the library takes
for literals without escapes returns what the loop returns. -/
def Unquote (s : GoString) : Option GoString :=
  match s with
  | 34 :: rest =>
    match unquoteLoop rest 0 [] with
    | some (out, []) => some out
    | _ => none
  | _ => none

/-- The table `lowerhex`. -/
def lowerhex (d : Nat) : Nat := if d < 10 then 48 + d else 87 + d

/-- Go `strconv.appendEscapedRune` as `Quote` calls it. -/
def appendEscapedRune (U : UnicodeTables) (r : Nat) : GoString :=
  if r = 34 ∨ r = 92 then [92, r]
  else if (if r < 0x80 then 0x20 ≤ r ∧ r < 0x7F else U.isPrint r = true) then encodeRune r
  else if r = 7 then [92, 97]
  else if r = 8 then [92, 98]
  else if r = 12 then [92, 102]
  else if r = 10 then [92, 110]
  else if r = 13 then [92, 114]
  else if r = 9 then [92, 116]
  else if r = 11 then [92, 118]
  else if r < 32 ∨ r = 0x7F then [92, 120, lowerhex (r / 16), lowerhex (r % 16)]
  else
    let r := if ValidRune r then r else RuneError
    if r < 0x10000 then
      [92, 117, lowerhex (r / 4096 % 16), lowerhex (r / 256 % 16), lowerhex (r / 16 % 16),
        lowerhex (r % 16)]
    else
      [92, 85, lowerhex (r / 268435456 % 16), lowerhex (r / 16777216 % 16),
        lowerhex (r / 1048576 % 16), lowerhex (r / 65536 % 16), lowerhex (r / 4096 % 16),
        lowerhex (r / 256 % 16), lowerhex (r / 16 % 16), lowerhex (r % 16)]

/-- The body of Go `strconv.Quote`, rune by rune: a byte that is not UTF-8 is
written `\xhh`. `skip` counts the bytes of the current rune still to step over. -/
def quoteBody (U : UnicodeTables) : GoString → Nat → GoString
  | [], _ => []
  | _ :: t, skip + 1 => quoteBody U t skip
  | b :: t, 0 =>
    (if (decodeRune (b :: t)).2 = 1 ∧ (decodeRune (b :: t)).1 = RuneError then
        [92, 120, lowerhex (b / 16), lowerhex (b % 16)]
      else appendEscapedRune U (decodeRune (b :: t)).1)
      ++ quoteBody U t ((decodeRune (b :: t)).2 - 1)

/-- Go `strconv.Quote`. -/
def Quote (U : UnicodeTables) (s : GoString) : GoString := 34 :: (quoteBody U s 0 ++ [34])

/-! ## The tag grammar parser -/

/-- The scan of `parseFieldTag` for the closing quote: `rest` is `tag[i:]`;
a backslash steps over the byte after it. Gives the final `i`. -/
def scanQuote : GoString → Nat → Nat → Nat
  | [], i, skip => i + skip
  | _ :: t, i, skip + 1 => scanQuote t (i + 1) skip
  | b :: t, i, 0 =>
    if b = 34 then i else if b = 92 then scanQuote t (i + 1) 1 else scanQuote t (i + 1) 0

/-- The source function `parseFieldTag`: default value, description, prefix
byte (0 for the empty tag). -/
def parseFieldTag (tag : GoString) : GoString × GoString × Nat :=
  match tag with
  | [] => ([], TrimSpace [], 0)
  | pfx :: _ =>
    if pfx ≠ 33 ∧ pfx ≠ 63 ∧ pfx ≠ 61 then ([], TrimSpace tag, pfx)
    else if pfx = 61 ∧ tag.length < 3 then ([], TrimSpace tag, pfx)
    else if 1 < tag.length ∧ tag.getD 1 0 = 34 then
      let i := scanQuote (tag.drop 2) 2 0
      if tag.length ≤ i then ([], TrimSpace tag, pfx)
      else (((Unquote ((tag.take (i + 1)).drop 1)).getD []), TrimSpace (tag.drop (i + 1)), pfx)
    else ([], TrimSpace (tag.drop 1), pfx)

/-! ## Field storage and value bindings -/

/-- The storage kind of a descriptor field (`reflect.Kind`); `other` stands for
every kind that is not bool, string or slice, with the name of its type. -/
inductive Kind where
  | bool
  | string
  | slice (elem : Kind)
  | other (typeName : GoString)
  deriving Repr, DecidableEq

/-- The value stored in a field. -/
inductive Val where
  | bool (b : Bool)
  | str (s : GoString)
  | strs (xs : List GoString)
  | bools (xs : List Bool)
  | vals (n : Nat)
  | other
  deriving Repr, DecidableEq

/-- The fields of the options struct of a command, by field index. -/
abbrev Store := List Val

/-- The zero value of a kind. A slice of strings or bools is the list of its
elements; a slice of anything else is known by its length only (`vals`). -/
def Kind.zero : Kind → Val
  | .bool => .bool false
  | .string => .str []
  | .slice .string => .strs []
  | .slice .bool => .bools []
  | .slice _ => .vals 0
  | .other _ => .other

/-- The name of a type, as `reflect` prints it. -/
def Kind.typeName : Kind → GoString
  | .bool => lit "bool"
  | .string => lit "string"
  | .slice e => lit "[]" ++ e.typeName
  | .other n => n

/-- A `ValueBinding`: the `reflect.Value` of field `field`, seen as a
`*boolValue`, `*stringValue` or `*sliceValue` (with the kind of its elements). -/
inductive Binding where
  | boolValue (field : Nat)
  | stringValue (field : Nat)
  | sliceValue (field : Nat) (elem : Kind)
  deriving Repr, DecidableEq

/-- The field a binding is built over. -/
def Binding.field : Binding → Nat
  | .boolValue i => i
  | .stringValue i => i
  | .sliceValue i _ => i

/-- The method `String` of the three bindings. -/
def Binding.String (b : Binding) (st : Store) : GoString :=
  match b with
  | .boolValue i => if st.getD i .other = .bool true then lit "true" else lit "false"
  | .stringValue i =>
    match st.getD i .other with
    | .str s => s
    | _ => []
  | .sliceValue _ e => lit "<[]" ++ e.typeName ++ lit " Value>"

/-- The method `Set` of the three bindings: the store afterwards and the error
returned. `boolValue.Set` stores the parsed value before it returns the error;
`sliceValue.Set` panics. -/
def Binding.Set (b : Binding) (s : GoString) (st : Store) : Outcome (Store × Option GoError) :=
  match b with
  | .boolValue i => .ok (st.set i (.bool (ParseBool s).1), (ParseBool s).2)
  | .stringValue i => .ok (st.set i (.str s), none)
  | .sliceValue _ _ => .panic "Set() on slice"

/-- The loop of `sliceValue.Setv` over a slice of bools: the elements set so
far, or the error of the first text that is no boolean. -/
def setvBools : List GoString → List Bool → List Bool ⊕ GoError
  | [], acc => .inl acc
  | s :: rest, acc =>
    match (ParseBool s).2 with
    | some e => .inr e
    | none => setvBools rest (acc ++ [(ParseBool s).1])

/-- The method `sliceValue.Setv`: a fresh slice of `len(args)` elements, each
set through the binder of the element kind (`NewValueBinder` panics on a kind
that is not string, bool or slice), stored in the field only when every element
was set. -/
def Binding.Setv (field : Nat) (elem : Kind) (args : List GoString) (st : Store) :
    Outcome (Store × Option GoError) :=
  match elem with
  | .string => .ok (st.set field (.strs args), none)
  | .bool =>
    match setvBools args [] with
    | .inl bs => .ok (st.set field (.bools bs), none)
    | .inr e => .ok (st, some e)
  | .slice _ =>
    match args with
    | [] => .ok (st.set field (.vals 0), none)
    | _ :: _ => .panic "Set() on slice"
  | .other _ => .panic "unexpected value type"

/-- The source function `NewValueBinding`: no binding for a kind that is not
bool, string or slice; a non-empty default is applied with `Set`, whose error
is dropped. -/
def NewValueBinding (field : Nat) (k : Kind) (defaultValue : GoString) (st : Store) :
    Outcome (Option Binding × Store) :=
  let val : Option Binding :=
    match k with
    | .bool => some (.boolValue field)
    | .string => some (.stringValue field)
    | .slice e => some (.sliceValue field e)
    | .other _ => none
  match val with
  | none => .ok (none, st)
  | some b =>
    if defaultValue ≠ [] then (b.Set defaultValue st).bind fun r => .ok (some b, r.1)
    else .ok (some b, st)

/-! ## Package `flag` -/

/-- Go `flag.ErrorHandling`. -/
inductive ErrorHandling where
  | ContinueOnError
  | ExitOnError
  | PanicOnError
  deriving Repr, DecidableEq

/-- Go `flag.Flag`. -/
structure Flag where
  Name : GoString
  Usage : GoString
  Value : Binding
  DefValue : GoString
  deriving Repr, DecidableEq

/-- Go `flag.FlagSet`: `formal` holds the defined flags (one per name), `args`
the arguments left after the flags, `usage` how a call of the usage function
ends. What the set prints is not modelled. -/
structure FlagSet where
  name : GoString
  errorHandling : ErrorHandling
  formal : List Flag
  parsed : Bool
  args : List GoString
  usage : Outcome Unit
  deriving Repr, DecidableEq

/-- Go `flag.NewFlagSet`. -/
def NewFlagSet (name : GoString) (errorHandling : ErrorHandling) : FlagSet :=
  ⟨name, errorHandling, [], false, [], .ok ()⟩

/-- Go `FlagSet.Var`: panics on a name that begins with `-`, contains `=` or is
already defined. -/
def FlagSet.Var (f : FlagSet) (value : Binding) (name usage : GoString) (st : Store) :
    Outcome FlagSet :=
  if name.head? = some 45 then .panic "flag begins with -"
  else if 61 ∈ name then .panic "flag contains ="
  else if f.formal.any (fun fl => fl.Name = name) then .panic "flag redefined"
  else .ok { f with formal := f.formal ++ [⟨name, usage, value, value.String st⟩] }

/-- The lookup `f.formal[name]`. -/
def FlagSet.lookup (f : FlagSet) (name : GoString) : Option Flag :=
  f.formal.find? fun fl => fl.Name = name

/-- The split of `name=value` at the first `=` after the first byte: the name,
and the value when there is one. -/
def splitFlagValue : GoString → GoString → GoString × Option GoString
  | acc, [] => (acc, none)
  | acc, b :: rest => if b = 61 then (acc, some rest) else splitFlagValue (acc ++ [b]) rest

/-- Go `FlagSet.failf`: the error, after the usage function has run. -/
def FlagSet.failf (f : FlagSet) (msg : String) (about : GoString) : Outcome GoError :=
  f.usage.bind fun _ => .ok (.flagError msg about)

/-- Go `FlagSet.parseOne`: the set and the store afterwards, whether a flag was
seen, and the error. -/
def FlagSet.parseOne (f : FlagSet) (st : Store) :
    Outcome (FlagSet × Store × Bool × Option GoError) :=
  match f.args with
  | [] => .ok (f, st, false, none)
  | s :: rest =>
    if s.length < 2 ∨ s.head? ≠ some 45 then .ok (f, st, false, none)
    else if s.getD 1 0 = 45 ∧ s.length = 2 then .ok ({ f with args := rest }, st, false, none)
    else
      let name := s.drop (if s.getD 1 0 = 45 then 2 else 1)
      if name.length = 0 ∨ name.head? = some 45 ∨ name.head? = some 61 then
        (f.failf "bad flag syntax" s).bind fun e => .ok (f, st, false, some e)
      else
        let f := { f with args := rest }
        let nv := splitFlagValue (name.take 1) (name.drop 1)
        match f.lookup nv.1 with
        | none =>
          if nv.1 = lit "help" ∨ nv.1 = lit "h" then
            f.usage.bind fun _ => .ok (f, st, false, some .errHelp)
          else
            (f.failf "flag provided but not defined" nv.1).bind fun e =>
              .ok (f, st, false, some e)
        | some fl =>
          match fl.Value with
          | .boolValue _ =>
            (fl.Value.Set (nv.2.getD (lit "true")) st).bind fun r =>
              match r.2 with
              | some _ =>
                (f.failf "invalid boolean value" nv.1).bind fun e => .ok (f, r.1, false, some e)
              | none => .ok (f, r.1, true, none)
          | _ =>
            match nv.2, f.args with
            | none, [] =>
              (f.failf "flag needs an argument" nv.1).bind fun e => .ok (f, st, false, some e)
            | none, v :: rest2 =>
              (fl.Value.Set v st).bind fun r =>
                match r.2 with
                | some _ =>
                  ({ f with args := rest2 }.failf "invalid value" nv.1).bind fun e =>
                    .ok ({ f with args := rest2 }, r.1, false, some e)
                | none => .ok ({ f with args := rest2 }, r.1, true, none)
            | some v, _ =>
              (fl.Value.Set v st).bind fun r =>
                match r.2 with
                | some _ =>
                  (f.failf "invalid value" nv.1).bind fun e => .ok (f, r.1, false, some e)
                | none => .ok (f, r.1, true, none)

/-- The loop of Go `FlagSet.Parse`; every round that sees a flag takes an
argument, so `len(arguments) + 1` rounds are enough. -/
def FlagSet.parseLoop : Nat → FlagSet → Store → Outcome (FlagSet × Store × Option GoError)
  | 0, _, _ => .outOfFuel
  | n + 1, f, st =>
    (f.parseOne st).bind fun r =>
      if r.2.2.1 then FlagSet.parseLoop n r.1 r.2.1
      else
        match r.2.2.2 with
        | none => .ok (r.1, r.2.1, none)
        | some e =>
          match r.1.errorHandling with
          | .ContinueOnError => .ok (r.1, r.2.1, some e)
          | .ExitOnError => if e = .errHelp then .exit 0 else .exit 2
          | .PanicOnError => .panic "flag: parse error"

/-- Go `FlagSet.Parse`. -/
def FlagSet.Parse (f : FlagSet) (arguments : List GoString) (st : Store) :
    Outcome (FlagSet × Store × Option GoError) :=
  FlagSet.parseLoop (arguments.length + 1) { f with parsed := true, args := arguments } st

/-! ## Commands -/

/-- The source type `Argument`. -/
structure Argument where
  Name : GoString
  Description : GoString
  Optional : Bool
  Value : Binding
  deriving Repr, DecidableEq

/-- What `cmd.main` calls: the plain `func()` handler, or the handler through
`reflect` with the options struct and the command (a call that panics unless
the handler takes exactly these two). -/
inductive Main where
  | plain
  | reflectCall (accepts : Bool)
  deriving Repr, DecidableEq

/-- The source type `Command`, together with `opts`, the options struct that
the bindings and `main` refer to. `Program` is the name of the program the
pointer refers to. -/
structure Command where
  Name : GoString
  Description : GoString
  Options : FlagSet
  OptionCount : Nat
  Args : List Argument
  VarArgs : Option Argument
  Program : Option GoString
  main : Option Main
  opts : Store
  deriving Repr, DecidableEq

/-- The loop `for ; i != argEnd; i++` of `Command.Parse`: argument `i` is set
from token `i` while both exist; the first error ends it. -/
def setArgs : List Argument → List GoString → Store → Outcome (Store × Option GoError)
  | a :: as, t :: ts, st =>
    (a.Value.Set t st).bind fun r =>
      match r.2 with
      | some e => .ok (r.1, some e)
      | none => setArgs as ts r.1
  | _, _, st => .ok (st, none)

/-- The source method `Command.Parse`: the command afterwards and the error
returned. -/
def Command.Parse (cmd : Command) (args : List GoString) : Outcome (Command × Option GoError) :=
  (cmd.Options.Parse args cmd.opts).bind fun r =>
    match r.2.2 with
    | some e => .ok ({ cmd with Options := r.1, opts := r.2.1 }, some e)
    | none =>
      let args := r.1.args
      (setArgs cmd.Args args r.2.1).bind fun r2 =>
        match r2.2 with
        | some e => .ok ({ cmd with Options := r.1, opts := r2.1 }, some e)
        | none =>
          match cmd.VarArgs with
          | none => .ok ({ cmd with Options := r.1, opts := r2.1 }, none)
          | some va =>
            if min cmd.Args.length args.length ≠ args.length then
              match va.Value with
              | .sliceValue field elem =>
                (Binding.Setv field elem (args.drop (min cmd.Args.length args.length)) r2.1).bind
                  fun r3 => .ok ({ cmd with Options := r.1, opts := r3.1 }, r3.2)
              | _ => .ok ({ cmd with Options := r.1, opts := r2.1 }, none)
            else .ok ({ cmd with Options := r.1, opts := r2.1 }, none)

/-- What `Command.Run` leaves: the command, and the options struct the handler
was called with, if it was called. The handler is the user's code; only the
call is modelled. -/
structure RunResult where
  cmd : Command
  handlerCalledWith : Option Store
  deriving Repr, DecidableEq

/-- The source method `Command.Run`: the result of `cmd.Parse` is dropped and
`cmd.main` is called; `cmd.Program` is set for the call and put back. -/
def Command.Run (cmd : Command) (p : GoString) (args : List GoString) : Outcome RunResult :=
  match cmd.main with
  | none => .ok ⟨cmd, none⟩
  | some m =>
    ({ cmd with Program := some p }.Parse args).bind fun r =>
      match m with
      | .reflectCall false => .panic "reflect: Call with wrong arguments"
      | _ => .ok ⟨{ r.1 with Program := cmd.Program }, some r.1.opts⟩

/-- A field of a descriptor: name, tag and storage kind. -/
structure Field where
  Name : GoString
  Tag : GoString
  kind : Kind
  deriving Repr, DecidableEq

/-- The source method `Command.addArg`. -/
def Command.addArg (cmd : Command) (field : Nat) (k : Kind) (optional : Bool)
    (name defaultValue descr : GoString) : Outcome Command :=
  (NewValueBinding field k defaultValue cmd.opts).bind fun r =>
    match r.1 with
    | none => .ok { cmd with opts := r.2 }
    | some val =>
      match val with
      | .sliceValue _ _ =>
        match cmd.VarArgs with
        | some _ => .panic "multiple varargs in command struct"
        | none => .ok { cmd with VarArgs := some ⟨name, descr, optional, val⟩, opts := r.2 }
      | _ => .ok { cmd with Args := cmd.Args ++ [⟨name, descr, optional, val⟩], opts := r.2 }

/-- The source method `Command.addOption`. -/
def Command.addOption (cmd : Command) (field : Nat) (k : Kind)
    (name defaultValue descr : GoString) : Outcome Command :=
  (NewValueBinding field k defaultValue cmd.opts).bind fun r =>
    match r.1 with
    | none => .ok { cmd with opts := r.2 }
    | some val =>
      (cmd.Options.Var val name descr r.2).bind fun fs =>
        .ok { cmd with Options := fs, opts := r.2 }

/-- The source method `Command.processField`. -/
def Command.processField (U : UnicodeTables) (cmd : Command) (fieldIndex : Nat) (fld : Field) :
    Outcome Command :=
  (translateFieldName U fld.Name).bind fun name =>
    let t := parseFieldTag fld.Tag
    if t.2.2 = 33 then cmd.addArg fieldIndex fld.kind false name t.1 t.2.1
    else if t.2.2 = 63 then cmd.addArg fieldIndex fld.kind true name t.1 t.2.1
    else cmd.addOption fieldIndex fld.kind name t.1 t.2.1

/-- The field loop of `NewCommand`: a field is processed when the first rune of
its name is upper case. -/
def processFields (U : UnicodeTables) : List Field → Nat → Command → Outcome Command
  | [], _, cmd => .ok cmd
  | fld :: rest, fieldIndex, cmd =>
    if isLu U (decodeRune fld.Name).1 then
      (cmd.processField U fieldIndex fld).bind fun cmd1 => processFields U rest (fieldIndex + 1) cmd1
    else processFields U rest (fieldIndex + 1) cmd

/-- The type of the first parameter of a handler, as `NewCommand` looks at it:
`fnt.In(0).Elem()` panics, is no struct, or is a struct with these fields. -/
inductive In0 where
  | noElem
  | elemNotStruct
  | elemStruct (fields : List Field)
  deriving Repr, DecidableEq

/-- The handler `f` given to `NewCommand`, as far as `reflect` looks at it. -/
inductive Handler where
  | notFunc
  | noParams (isPlainFunc : Bool)
  | params (in0 : In0) (acceptsCall : Bool)
  deriving Repr, DecidableEq

/-- The source function `NewCommand`. -/
def NewCommand (U : UnicodeTables) (name description : GoString) (f : Handler) :
    Outcome Command :=
  let cmd : Command :=
    ⟨name, description, NewFlagSet name .ExitOnError, 0, [], none, none, none, []⟩
  match f with
  | .notFunc => .panic "not a function"
  | .noParams true => .ok { cmd with main := some .plain }
  | .noParams false => .panic "command function shouldn't return any values"
  | .params .noElem _ => .panic "reflect: Elem of invalid type"
  | .params .elemNotStruct _ => .panic "Command.Options must be a struct"
  | .params (.elemStruct fields) accepts =>
    (processFields U fields 0
        { cmd with main := some (.reflectCall accepts), opts := fields.map fun fld => fld.kind.zero }).bind
      fun cmd1 => .ok { cmd1 with OptionCount := cmd1.Options.formal.length }

/-! ## Programs -/

/-- The source type `Program`, with `vars`, the variables its flags are bound
to. `Usage` tells whether the usage function is set. -/
structure Program where
  Name : GoString
  Options : FlagSet
  Commands : List (GoString × Command)
  DefaultCommand : Option Command
  Usage : Bool
  IsQuiet : Bool
  ExitOnError : Bool
  vars : Store
  deriving Repr, DecidableEq

/-- The source variable `HelpCommand`. -/
def HelpCommand (U : UnicodeTables) : Outcome Command :=
  NewCommand U (lit "help") (lit "Show help")
    (.params (.elemStruct [⟨lit "Command", lit "?", .string⟩]) true)

/-- The call `p.Usage(p)`: a nil function panics. -/
def Program.callUsage (p : Program) : Outcome Unit :=
  if p.Usage then .ok () else .panic "invalid memory address or nil pointer dereference"

/-- The slice expression `a[1:]`, which panics on the empty slice. -/
def sliceFrom1 (a : List GoString) : Outcome (List GoString) :=
  match a with
  | [] => .panic "slice bounds out of range [1:0]"
  | _ :: rest => .ok rest

/-- The source method `Program.Parse`: the program afterwards, the matching
command and its arguments. -/
def Program.Parse (U : UnicodeTables) (p : Program) (args : List GoString) :
    Outcome (Program × Option Command × List GoString) :=
  ({ p.Options with usage := p.callUsage }.Parse args p.vars).bind fun r =>
    let p1 : Program := { p with Options := { r.1 with usage := .ok () }, vars := r.2.1 }
    match r.2.2 with
    | some _ => .panic "flag: parse error"
    | none =>
      let remainingArgs := r.1.args
      let fail : Outcome (Program × Option Command × List GoString) :=
        if p.ExitOnError then .exit 1 else .ok (p1, none, remainingArgs)
      if remainingArgs.length = 0 ∨ p.Commands.length = 0 then
        match p.DefaultCommand with
        | some d => (sliceFrom1 remainingArgs).bind fun rest => .ok (p1, some d, rest)
        | none => p.callUsage.bind fun _ => fail
      else
        match remainingArgs with
        | [] => fail
        | cmdName :: rest =>
          match (p.Commands.find? fun (c : GoString × Command) => c.1 = cmdName).map
              (fun (c : GoString × Command) => c.2) with
          | some c => .ok (p1, some c, rest)
          | none =>
            if cmdName = lit "help" then (HelpCommand U).bind fun h => .ok (p1, some h, rest)
            else fail

/-! ## Notions used in the statements -/

/-- The first token, if there is one, does not start with `-`: no token is
taken as a flag. -/
def noLeadingDash (t : List GoString) : Prop := ∀ s, t.head? = some s → s.head? ≠ some 45

/-- The binding of a positional parameter takes the token without error. -/
def Argument.accepts (a : Argument) (tok : GoString) : Prop :=
  match a.Value with
  | .boolValue _ => (ParseBool tok).2 = none
  | .stringValue _ => True
  | .sliceValue _ _ => False

/-- The value that positional parameter `i` holds. -/
def Command.positional (cmd : Command) (i : Nat) : Option Val :=
  (cmd.Args[i]?).bind fun a => cmd.opts[a.Value.field]?

/-- The value that the variadic slot holds. -/
def Command.variadic (cmd : Command) : Option Val :=
  cmd.VarArgs.bind fun a => cmd.opts[a.Value.field]?

/-- The fields that the positional parameters and the variadic slot are bound to. -/
def Command.positionalFields (cmd : Command) : List Nat :=
  (cmd.Args.map fun a => a.Value.field) ++ (cmd.VarArgs.toList.map fun a => a.Value.field)

/-- The positional parameters and the variadic slot are bound to different
fields of the options struct, all of which exist. -/
def Command.WellFormed (cmd : Command) : Prop :=
  cmd.positionalFields.Nodup ∧ ∀ i ∈ cmd.positionalFields, i < cmd.opts.length

/-- The stores `Set` one after the other. -/
def applySets (ps : List (Nat × Val)) (st : Store) : Store :=
  ps.foldl (fun s p => s.set p.1 p.2) st

/-- The fields that the flags of the command are bound to. -/
def Command.flagFields (cmd : Command) : List Nat :=
  cmd.Options.formal.map fun fl => fl.Value.field

/-- Every field that some binding of the command is built over. -/
def Command.boundFields (cmd : Command) : List Nat :=
  cmd.positionalFields ++ cmd.flagFields

/-- `NewCommand` looks at the field: the first rune of its name is upper case. -/
def Field.exported (U : UnicodeTables) (fld : Field) : Prop :=
  isLu U (decodeRune fld.Name).1 = true

/-- The annotation of the field gives the role marker `!` or `?`. -/
def Field.positionalMarker (fld : Field) : Prop :=
  (parseFieldTag fld.Tag).2.2 = 33 ∨ (parseFieldTag fld.Tag).2.2 = 63

/-- The kind is bool, string or slice. -/
def Kind.supported : Kind → Prop
  | .other _ => False
  | _ => True

/-- What holds of a command while `NewCommand` walks the fields, `n` of which
it has seen: each field is bound at most once, the bound fields are exported
fields of a supported kind, and an exported sequence field with a positional
marker is the variadic slot. -/
def FieldsInv (U : UnicodeTables) (fields : List Field) (n : Nat) (cmd : Command) : Prop :=
  cmd.boundFields.Nodup ∧
    (∀ j ∈ cmd.boundFields, j < n ∧ ∃ f, fields[j]? = some f ∧ f.exported U ∧ f.kind.supported) ∧
    (∀ j f e, j < n → fields[j]? = some f → f.exported U → f.positionalMarker →
      f.kind = .slice e → ∃ va, cmd.VarArgs = some va ∧ va.Value = .sliceValue j e) ∧
    (∀ j f, j < n → fields[j]? = some f → f.exported U → ¬ f.positionalMarker →
      f.kind.supported → ∃ fl ∈ cmd.Options.formal, fl.Value.field = j)

/-- An escaped form `ch` that stands for the bytes `out`: the loop of `Unquote`
turns it into `out`, and the scan of `parseFieldTag` steps over it. -/
def GoodChunk (ch out : GoString) : Prop :=
  (∀ rest buf, unquoteLoop (ch ++ rest) 0 buf = unquoteLoop rest 0 (buf ++ out)) ∧
    ∀ rest i, scanQuote (ch ++ rest) i 0 = scanQuote rest (i + ch.length) 0

/-- Whether a text holds a double quote that no backslash escapes: a backslash
takes the byte after it with it; this is how the text after an opening quote is
closed. -/
def hasClosingQuote : GoString → Bool
  | [] => false
  | b :: t =>
    if b = 34 then true
    else if b = 92 then
      match t with
      | [] => false
      | _ :: t2 => hasClosingQuote t2
    else hasClosingQuote t

/-! ## Concrete inputs used below -/

/-- Tables that put no code point outside ASCII in any class and leave its case
alone; the inputs evaluated below are ASCII, where no table is read. -/
def asciiTables : UnicodeTables :=
  ⟨fun _ => false, fun _ => false, fun _ => false, fun _ => false, fun _ => false,
    fun _ => false, fun r => r, fun _ => false⟩

/-- A handler over a struct with a required positional `Name` and a
sequence field `Files` that is marked positional. -/
def nameFilesHandler : Handler :=
  .params (.elemStruct [⟨lit "Name", lit "!", .string⟩, ⟨lit "Files", lit "!", .slice .string⟩])
    true

/-- The command `NewCommand` builds from `nameFilesHandler`. -/
def nameFilesCommand : Command :=
  { Name := lit "get", Description := lit "Get files",
    Options := NewFlagSet (lit "get") .ExitOnError, OptionCount := 0,
    Args := [⟨lit "name", [], false, .stringValue 0⟩],
    VarArgs := some ⟨lit "files", [], false, .sliceValue 1 .string⟩,
    Program := none, main := some (.reflectCall true), opts := [.str [], .strs []] }

/-- A handler over a struct with one required boolean positional `Force`. -/
def boolArgHandler : Handler :=
  .params (.elemStruct [⟨lit "Force", lit "!", .bool⟩]) true

/-- The command `NewCommand` builds from `boolArgHandler`. -/
def boolArgCommand : Command :=
  { Name := lit "rm", Description := lit "Remove",
    Options := NewFlagSet (lit "rm") .ExitOnError, OptionCount := 0,
    Args := [⟨lit "force", [], false, .boolValue 0⟩], VarArgs := none,
    Program := none, main := some (.reflectCall true), opts := [.bool false] }

/-- A handler over a struct with a required positional `Count` of kind int. -/
def intFieldHandler : Handler :=
  .params (.elemStruct [⟨lit "Count", lit "!", .other (lit "int")⟩]) true

/-- A handler over a struct with a sequence field `Files` without role marker. -/
def sliceFlagHandler : Handler :=
  .params (.elemStruct [⟨lit "Files", lit "Some files", .slice .string⟩]) true

/-- A program without flags and commands whose default command is `d`. -/
def defaultOnlyProgram (d : Command) (exitOnError : Bool) : Program :=
  { Name := lit "prog", Options := NewFlagSet (lit "prog") .ExitOnError, Commands := [],
    DefaultCommand := some d, Usage := true, IsQuiet := false, ExitOnError := exitOnError,
    vars := [] }

/-! ## The name translator: documented examples -/

set_option smartUnfolding false in
set_option maxRecDepth 100000 in
/-- C3: `translateFieldName` gives the documented outputs for the five mixed-case
examples `FooBar`, `Lol`, `FirstNameLOLCat`, `FooBar_baz_CATz_LOLCaT` and
`Plan9From800Outer_space`, whatever the Unicode tables say outside ASCII. -/
theorem translateFieldName_examples (U : UnicodeTables) :
    translateFieldName U (lit "FooBar") = .ok (lit "foo-bar") ∧
    translateFieldName U (lit "Lol") = .ok (lit "lol") ∧
    translateFieldName U (lit "FirstNameLOLCat") = .ok (lit "first-name-lol-cat") ∧
    translateFieldName U (lit "FooBar_baz_CATz_LOLCaT") = .ok (lit "foo-bar-baz-catz-lol-ca-t") ∧
    translateFieldName U (lit "Plan9From800Outer_space")
      = .ok (lit "plan9-from800-outer-space") :=
  ⟨rfl, rfl, rfl, rfl, rfl⟩

set_option smartUnfolding false in
set_option maxRecDepth 100000 in
/-- C4 (the code departs from its doc comment): on `FOO` the first pass rewrites
the whole name to `-FO-O`, and `translateFieldName` returns `-fo-o`, not the
documented `foo`. -/
theorem translateFieldName_FOO (U : UnicodeTables) :
    translateFieldName U (lit "FOO") = .ok (lit "-fo-o") ∧
    translateFieldName U (lit "FOO") ≠ .ok (lit "foo") :=
  ⟨rfl, by
    have h : translateFieldName U (lit "FOO") = .ok (lit "-fo-o") := rfl
    rw [h]; decide⟩

/-! ## Evaluations at concrete inputs -/

set_option smartUnfolding false in
set_option maxRecDepth 100000 in
theorem NewCommand_nameFiles (U : UnicodeTables) :
    NewCommand U (lit "get") (lit "Get files") nameFilesHandler = .ok nameFilesCommand := rfl

set_option smartUnfolding false in
set_option maxRecDepth 100000 in
theorem NewCommand_boolArg (U : UnicodeTables) :
    NewCommand U (lit "rm") (lit "Remove") boolArgHandler = .ok boolArgCommand := rfl

/-- C5 (the code departs from the claim): `boolValue.Set` stores the value that
`ParseBool` returns before it looks at the error, so `Set("banana")` returns the
error and leaves false in the field, whatever the field held; a field that held
true is changed. -/
theorem boolValue_Set_banana (i : Nat) (st : Store) :
    (Binding.boolValue i).Set (lit "banana") st
        = .ok (st.set i (.bool false), some (.syntaxError "ParseBool" (lit "banana"))) ∧
      (Binding.boolValue 0).Set (lit "banana") [.bool true]
        = .ok ([.bool false], some (.syntaxError "ParseBool" (lit "banana"))) :=
  ⟨rfl, rfl⟩

/-- C9 (the code departs from the claim): on the command with one boolean
positional parameter, `Parse` of `banana` returns an error, and `Run` of the
same tokens still calls the handler, with the field reset to false. -/
theorem Run_calls_handler_after_parse_error :
    (∃ c e, boolArgCommand.Parse [lit "banana"] = .ok (c, some e)) ∧
      ∃ c, boolArgCommand.Run (lit "prog") [lit "banana"] = .ok ⟨c, some [.bool false]⟩ :=
  ⟨⟨_, _, rfl⟩, ⟨_, rfl⟩⟩

/-- C10 (the code departs from the claim): with a default command and no token
left after the flags, `Program.Parse` evaluates `remainingArgs[1:]` on the empty
slice and panics; it returns nothing. -/
theorem Program_Parse_default_empty (U : UnicodeTables) (d : Command) (exitOnError : Bool) :
    Program.Parse U (defaultOnlyProgram d exitOnError) []
      = .panic "slice bounds out of range [1:0]" := rfl

/-! ## Parsing positional tokens -/

theorem Outcome.bind_ok {α β : Type} (a : α) (f : α → Outcome β) :
    (Outcome.ok a).bind f = f a := rfl

theorem FlagSet.Parse_noLeadingDash (f : FlagSet) (t : List GoString) (st : Store)
    (ht : noLeadingDash t) :
    f.Parse t st = .ok ({ f with parsed := true, args := t }, st, none) := by
  unfold FlagSet.Parse FlagSet.parseLoop
  cases t with
  | nil => simp [FlagSet.parseOne, Outcome.bind]
  | cons s rest =>
    have h : s.head? ≠ some 45 := ht s rfl
    simp [FlagSet.parseOne, Outcome.bind, h]

theorem applySets_length (ps : List (Nat × Val)) (st : Store) :
    (applySets ps st).length = st.length := by
  induction ps generalizing st with
  | nil => rfl
  | cons p ps ih => simp [applySets, List.foldl] at ih ⊢; rw [ih]; simp

theorem applySets_getElem?_of_not_mem (ps : List (Nat × Val)) (st : Store) (j : Nat)
    (hj : j ∉ ps.map Prod.fst) : (applySets ps st)[j]? = st[j]? := by
  induction ps generalizing st with
  | nil => rfl
  | cons p ps ih =>
    simp only [List.map_cons, List.mem_cons, not_or] at hj
    have := ih (st.set p.1 p.2) hj.2
    simp only [applySets, List.foldl] at this ⊢
    rw [this, List.getElem?_set_ne (Ne.symm hj.1)]

theorem applySets_getElem?_of_mem (ps : List (Nat × Val)) (st : Store) (k : Nat) (v : Val)
    (hnd : (ps.map Prod.fst).Nodup) (hk : (k, v) ∈ ps) (hlt : k < st.length) :
    (applySets ps st)[k]? = some v := by
  induction ps generalizing st with
  | nil => cases hk
  | cons p ps ih =>
    simp only [List.map_cons, List.nodup_cons] at hnd
    rcases List.mem_cons.1 hk with h | h
    · subst h
      have := applySets_getElem?_of_not_mem ps (st.set k v) k hnd.1
      simp only [applySets, List.foldl] at this ⊢
      rw [this]; simp [hlt]
    · have := ih (st.set p.1 p.2) hnd.2 h (by simpa using hlt)
      simpa [applySets, List.foldl] using this

theorem setArgs_of_accepts (as : List Argument) (ts : List GoString) (st : Store)
    (h : ∀ p ∈ as.zip ts, p.1.accepts p.2) : ∃ st', setArgs as ts st = .ok (st', none) := by
  induction as generalizing ts st with
  | nil => exact ⟨st, by simp [setArgs]⟩
  | cons a as ih =>
    cases ts with
    | nil => exact ⟨st, by simp [setArgs]⟩
    | cons t ts =>
      have ha : a.accepts t := h (a, t) (by simp)
      have hrest : ∀ p ∈ as.zip ts, p.1.accepts p.2 := fun p hp => h p (by simp [hp])
      unfold Argument.accepts at ha
      cases hv : a.Value with
      | boolValue i =>
        rw [hv] at ha
        obtain ⟨st', h'⟩ := ih ts (st.set i (.bool (ParseBool t).1)) hrest
        exact ⟨st', by simp [setArgs, hv, Binding.Set, Outcome.bind, ha, h']⟩
      | stringValue i =>
        obtain ⟨st', h'⟩ := ih ts (st.set i (.str t)) hrest
        exact ⟨st', by simp [setArgs, hv, Binding.Set, Outcome.bind, h']⟩
      | sliceValue i e => rw [hv] at ha; exact ha.elim

theorem setArgs_string (as : List Argument) (ts : List GoString) (st : Store)
    (h : ∀ a ∈ as, a.Value = .stringValue a.Value.field) :
    setArgs as ts st
      = .ok (applySets ((as.zip ts).map fun p => (p.1.Value.field, Val.str p.2)) st, none) := by
  induction as generalizing ts st with
  | nil => simp [setArgs, applySets]
  | cons a as ih =>
    cases ts with
    | nil => simp [setArgs, applySets]
    | cons t ts =>
      have ha := h a (by simp)
      have := ih ts (st.set a.Value.field (.str t)) (fun b hb => h b (by simp [hb]))
      rw [setArgs, ha, Binding.Set, Outcome.bind_ok]
      simp only [Binding.field] at this ⊢
      rw [this]
      simp [applySets]

theorem zipSets_fst (as : List Argument) (ts : List GoString) :
    ((as.zip ts).map fun p => (p.1.Value.field, Val.str p.2)).map Prod.fst
      = (as.take ts.length).map fun a => a.Value.field := by
  induction as generalizing ts with
  | nil => simp
  | cons a as ih =>
    cases ts with
    | nil => simp
    | cons t ts => simp [ih]

theorem zipSets_mem (as : List Argument) (ts : List GoString) (i : Nat) (a : Argument)
    (t : GoString) (ha : as[i]? = some a) (ht : ts[i]? = some t) :
    (a.Value.field, Val.str t) ∈ (as.zip ts).map fun p => (p.1.Value.field, Val.str p.2) := by
  induction as generalizing ts i with
  | nil => simp at ha
  | cons a0 as ih =>
    cases ts with
    | nil => simp at ht
    | cons t0 ts =>
      cases i with
      | zero =>
        simp at ha ht
        subst ha; subst ht
        simp
      | succ i =>
        simp at ha ht
        have := ih ts i ha ht
        simp only [List.zip_cons_cons, List.map_cons, List.mem_cons]
        exact Or.inr this

theorem not_mem_take_of_nodup {α : Type} (l : List α) (k i : Nat) (x : α) (hnd : l.Nodup)
    (hki : k ≤ i) (hx : l[i]? = some x) : x ∉ l.take k := by
  induction l generalizing k i with
  | nil => simp at hx
  | cons y l ih =>
    cases k with
    | zero => simp
    | succ k =>
      cases i with
      | zero => omega
      | succ i =>
        simp only [List.nodup_cons] at hnd
        simp at hx
        simp only [List.take_succ_cons, List.mem_cons, not_or]
        refine ⟨?_, ih k i hnd.2 (by omega) hx⟩
        rintro rfl
        exact hnd.1 (List.mem_iff_getElem?.2 ⟨i, hx⟩)

theorem setArgs_take (as : List Argument) (ts : List GoString) (st : Store) :
    setArgs as (ts.take as.length) st = setArgs as ts st := by
  induction as generalizing ts st with
  | nil => cases ts <;> simp [setArgs]
  | cons a as ih =>
    cases ts with
    | nil => simp [setArgs]
    | cons t ts =>
      simp only [List.length_cons, List.take_succ_cons, setArgs]
      congr 1
      funext r
      cases r.2 <;> simp [ih]

theorem noLeadingDash_take (t : List GoString) (n : Nat) (h : noLeadingDash t) :
    noLeadingDash (t.take n) := by
  intro s hs
  cases t with
  | nil => simp at hs
  | cons a t =>
    cases n with
    | zero => simp at hs
    | succ n => simp at hs; exact h s (by simp [hs])

/-- What `Parse` does to a command whose positional parameters are strings and
whose variadic slot, if any, is a sequence of strings, on tokens without flags. -/
theorem Parse_string_args (cmd : Command) (t : List GoString)
    (hstr : ∀ a ∈ cmd.Args, a.Value = .stringValue a.Value.field)
    (hvar : ∀ va, cmd.VarArgs = some va → va.Value = .sliceValue va.Value.field .string)
    (ht : noLeadingDash t) :
    cmd.Parse t = .ok
      ({ cmd with
          Options := { cmd.Options with parsed := true, args := t }
          opts :=
            match cmd.VarArgs with
            | none => applySets ((cmd.Args.zip t).map fun p => (p.1.Value.field, Val.str p.2)) cmd.opts
            | some va =>
              if cmd.Args.length < t.length then
                (applySets ((cmd.Args.zip t).map fun p => (p.1.Value.field, Val.str p.2))
                  cmd.opts).set va.Value.field (.strs (t.drop cmd.Args.length))
              else applySets ((cmd.Args.zip t).map fun p => (p.1.Value.field, Val.str p.2)) cmd.opts },
        none) := by
  unfold Command.Parse
  rw [FlagSet.Parse_noLeadingDash _ _ _ ht, Outcome.bind_ok]
  simp only [setArgs_string _ _ _ hstr, Outcome.bind_ok]
  cases hva : cmd.VarArgs with
  | none => simp
  | some va =>
    have hv := hvar va hva
    by_cases hlt : cmd.Args.length < t.length
    · have hmin : min cmd.Args.length t.length = cmd.Args.length := by omega
      have hne : ¬ cmd.Args.length = t.length := by omega
      simp only [hmin, hlt, if_true, ne_eq, hne, not_false_eq_true]
      rw [hv]
      simp [Binding.Setv, Outcome.bind, Binding.field]
    · have hmin : min cmd.Args.length t.length = t.length := by omega
      simp [hmin, hlt]

/-- C1: `Command.Parse` distributes positional tokens by position. For a
command whose positional parameters are string bindings over distinct fields
(and whose variadic slot, if it has one, is a sequence of strings) and tokens
`t` whose first token does not start with `-`: `Parse` returns no error;
parameter `i` holds `t[i]` for every `i` below both the number of parameters
and `len t`; parameters from `len t` on keep their value; with more tokens than
parameters the variadic slot, when present, holds exactly `t[n:]`; without a
variadic slot the surplus tokens are ignored (the fields are those that parsing
`t[:n]` gives). -/
theorem Parse_distributes_positional (cmd : Command) (t : List GoString)
    (hwf : cmd.WellFormed)
    (hstr : ∀ a ∈ cmd.Args, a.Value = .stringValue a.Value.field)
    (hvar : ∀ va, cmd.VarArgs = some va → va.Value = .sliceValue va.Value.field .string)
    (ht : noLeadingDash t) :
    ∃ cmd', cmd.Parse t = .ok (cmd', none) ∧ cmd'.Args = cmd.Args ∧
      cmd'.VarArgs = cmd.VarArgs ∧
      (∀ i, i < cmd.Args.length → i < t.length →
        cmd'.positional i = (t[i]?).map Val.str) ∧
      (∀ i, t.length ≤ i → cmd'.positional i = cmd.positional i) ∧
      (cmd.Args.length < t.length → cmd.VarArgs ≠ none →
        cmd'.variadic = some (.strs (t.drop cmd.Args.length))) ∧
      (cmd.VarArgs = none →
        ∃ c2, cmd.Parse (t.take cmd.Args.length) = .ok (c2, none) ∧ c2.opts = cmd'.opts) := by
  obtain ⟨hnd, hbound⟩ := hwf
  have hndA : (cmd.Args.map fun a => a.Value.field).Nodup :=
    (List.nodup_append.1 hnd).1
  have hZnd : (((cmd.Args.zip t).map fun p => (p.1.Value.field, Val.str p.2)).map
      Prod.fst).Nodup := by
    rw [zipSets_fst, List.map_take]
    exact (List.take_sublist _ _).nodup hndA
  -- the variadic field is none of the positional fields
  have hvaNe : ∀ va, cmd.VarArgs = some va → ∀ a ∈ cmd.Args, a.Value.field ≠ va.Value.field := by
    intro va hva a ha heq
    have hdis := (List.nodup_append.1 hnd).2.2
    exact hdis (List.mem_map.2 ⟨a, ha, rfl⟩) (by simp [hva, heq])
  refine ⟨_, Parse_string_args cmd t hstr hvar ht, rfl, rfl, ?_, ?_, ?_, ?_⟩
  · -- filled parameters
    intro i hi hti
    have hai : cmd.Args[i]? = some cmd.Args[i] := List.getElem?_eq_getElem hi
    have hti' : t[i]? = some t[i] := List.getElem?_eq_getElem hti
    have hmem := zipSets_mem cmd.Args t i _ _ hai hti'
    have hlt : (cmd.Args[i]).Value.field < cmd.opts.length :=
      hbound _ (by simp [Command.positionalFields]; exact Or.inl ⟨_, List.getElem_mem hi, rfl⟩)
    have hget := applySets_getElem?_of_mem _ cmd.opts _ _ hZnd hmem hlt
    simp only [Command.positional, hai, hti', Option.some_bind, Option.map_some']
    cases hva : cmd.VarArgs with
    | none => simpa using hget
    | some va =>
      have hne := hvaNe va hva _ (List.getElem_mem hi)
      by_cases hl : cmd.Args.length < t.length
      · simp only [hl, if_true]
        rw [List.getElem?_set_ne (Ne.symm hne)]
        exact hget
      · simpa [hl] using hget
  · -- parameters past the tokens
    intro i hi
    simp only [Command.positional]
    cases hai : cmd.Args[i]? with
    | none => simp
    | some a =>
      have hamem : a ∈ cmd.Args := List.mem_iff_getElem?.2 ⟨i, hai⟩
      have hnot : a.Value.field ∉
          ((cmd.Args.zip t).map fun p => (p.1.Value.field, Val.str p.2)).map Prod.fst := by
        rw [zipSets_fst, List.map_take]
        exact not_mem_take_of_nodup _ _ i _ hndA hi (by simp [hai])
      have hget := applySets_getElem?_of_not_mem _ cmd.opts _ hnot
      simp only [Option.some_bind]
      cases hva : cmd.VarArgs with
      | none => simpa using hget
      | some va =>
        have hne := hvaNe va hva a hamem
        by_cases hl : cmd.Args.length < t.length
        · simp only [hl, if_true]
          rw [List.getElem?_set_ne (Ne.symm hne)]
          exact hget
        · simpa [hl] using hget
  · -- the variadic slot
    intro hl hne
    cases hva : cmd.VarArgs with
    | none => exact absurd hva hne
    | some va =>
      have hlt : va.Value.field < cmd.opts.length :=
        hbound _ (by simp [Command.positionalFields, hva])
      simp [Command.variadic, hl, applySets_length, hlt]
  · -- no variadic slot: the surplus is ignored
    intro hva
    refine ⟨_, Parse_string_args cmd _ hstr hvar (noLeadingDash_take t _ ht), ?_⟩
    have h1 := setArgs_string cmd.Args (t.take cmd.Args.length) cmd.opts hstr
    have h2 := setArgs_string cmd.Args t cmd.opts hstr
    rw [setArgs_take, h2] at h1
    simp only [hva]
    injection h1 with h1
    exact (congrArg Prod.fst h1).symm

/-- C1, witness: required `Name` plus sequence `Files` with the tokens `a.txt`,
`b.txt`, `c.txt` gives `Name = a.txt` and `Files = [b.txt, c.txt]`. -/
theorem Parse_distributes_positional_witness :
    (NewCommand asciiTables (lit "get") (lit "Get files") nameFilesHandler
        = .ok nameFilesCommand) ∧
      (∃ c, nameFilesCommand.Parse [lit "a.txt", lit "b.txt", lit "c.txt"] = .ok (c, none) ∧
        c.opts = [.str (lit "a.txt"), .strs [lit "b.txt", lit "c.txt"]]) ∧
      ∃ cmd', nameFilesCommand.Parse [lit "a.txt", lit "b.txt", lit "c.txt"] = .ok (cmd', none) ∧
        cmd'.Args = nameFilesCommand.Args ∧ cmd'.VarArgs = nameFilesCommand.VarArgs ∧
        (∀ i, i < nameFilesCommand.Args.length → i < [lit "a.txt", lit "b.txt", lit "c.txt"].length →
          cmd'.positional i = ([lit "a.txt", lit "b.txt", lit "c.txt"][i]?).map Val.str) ∧
        (∀ i, [lit "a.txt", lit "b.txt", lit "c.txt"].length ≤ i →
          cmd'.positional i = nameFilesCommand.positional i) ∧
        (nameFilesCommand.Args.length < [lit "a.txt", lit "b.txt", lit "c.txt"].length →
          nameFilesCommand.VarArgs ≠ none →
          cmd'.variadic
            = some (.strs ([lit "a.txt", lit "b.txt", lit "c.txt"].drop nameFilesCommand.Args.length))) ∧
        (nameFilesCommand.VarArgs = none →
          ∃ c2, nameFilesCommand.Parse
              ([lit "a.txt", lit "b.txt", lit "c.txt"].take nameFilesCommand.Args.length)
            = .ok (c2, none) ∧ c2.opts = cmd'.opts) :=
  ⟨NewCommand_nameFiles asciiTables, ⟨_, rfl, rfl⟩,
    Parse_distributes_positional nameFilesCommand [lit "a.txt", lit "b.txt", lit "c.txt"]
      ⟨by decide, by decide⟩ (by decide) (by intro va h; cases h; rfl)
      (by intro s hs; cases hs; decide)⟩

theorem setArgs_getElem?_of_not_mem (as : List Argument) (ts : List GoString) (st st' : Store)
    (e : Option GoError) (h : setArgs as ts st = .ok (st', e)) (j : Nat)
    (hj : j ∉ (as.take ts.length).map fun a => a.Value.field) : st'[j]? = st[j]? := by
  induction as generalizing ts st with
  | nil => simp [setArgs] at h; rw [h.1]
  | cons a as ih =>
    cases ts with
    | nil => simp [setArgs] at h; rw [h.1]
    | cons t ts =>
      simp only [List.length_cons, List.take_succ_cons, List.map_cons, List.mem_cons,
        not_or] at hj
      rw [setArgs] at h
      cases hv : a.Value with
      | boolValue i =>
        rw [hv] at h hj
        simp only [Binding.Set, Outcome.bind_ok, Binding.field] at h hj
        cases hp : (ParseBool t).2 with
        | none =>
          rw [hp] at h
          rw [ih ts _ h hj.2, List.getElem?_set_ne (Ne.symm hj.1)]
        | some e' =>
          rw [hp] at h
          injection h with h
          rw [← (Prod.mk.inj h).1, List.getElem?_set_ne (Ne.symm hj.1)]
      | stringValue i =>
        rw [hv] at h hj
        simp only [Binding.Set, Outcome.bind_ok, Binding.field] at h hj
        rw [ih ts _ h hj.2, List.getElem?_set_ne (Ne.symm hj.1)]
      | sliceValue i e' =>
        rw [hv] at h
        simp [Binding.Set, Outcome.bind] at h

/-- C2, counterexample: the descriptor with required positional `Name` and
sequence field `Files` has a required positional parameter, and `Parse` of the
empty token list returns no error. -/
theorem Parse_empty_returns_no_error :
    NewCommand asciiTables (lit "get") (lit "Get files") nameFilesHandler
        = .ok nameFilesCommand ∧
      (∃ a ∈ nameFilesCommand.Args, a.Optional = false) ∧
      nameFilesCommand.Parse []
        = .ok ({ nameFilesCommand with
                  Options := { nameFilesCommand.Options with parsed := true } }, none) :=
  ⟨NewCommand_nameFiles asciiTables, by decide, rfl⟩

/-- C2 (amended): `Command.Parse` does not look at `Optional`. For every
command and every token list without flags that supplies fewer positional
tokens than there are required positional parameters, `Parse` returns no error
as long as the bindings take the tokens that are supplied; the parameters left
without a token, and the variadic slot, keep their values. -/
theorem Parse_missing_required_no_error (cmd : Command) (t : List GoString)
    (hreq : t.length < (cmd.Args.filter fun a => !a.Optional).length)
    (ht : noLeadingDash t)
    (hacc : ∀ p ∈ cmd.Args.zip t, p.1.accepts p.2) :
    ∃ cmd', cmd.Parse t = .ok (cmd', none) ∧ cmd'.Args = cmd.Args ∧
      cmd'.VarArgs = cmd.VarArgs ∧
      (cmd.WellFormed → ∀ i, t.length ≤ i → cmd'.positional i = cmd.positional i) ∧
      (cmd.WellFormed → cmd'.variadic = cmd.variadic) := by
  obtain ⟨st', hst'⟩ := setArgs_of_accepts cmd.Args t cmd.opts hacc
  have hlen : t.length < cmd.Args.length :=
    lt_of_lt_of_le hreq (List.length_filter_le _ _)
  have hmin : min cmd.Args.length t.length = t.length := by omega
  have hparse : cmd.Parse t
      = .ok ({ cmd with Options := { cmd.Options with parsed := true, args := t },
                        opts := st' }, none) := by
    unfold Command.Parse
    rw [FlagSet.Parse_noLeadingDash _ _ _ ht, Outcome.bind_ok]
    simp only [hst', Outcome.bind_ok, hmin]
    cases cmd.VarArgs <;> simp
  refine ⟨_, hparse, rfl, rfl, ?_, ?_⟩
  · intro hwf i hi
    have hndA : (cmd.Args.map fun a => a.Value.field).Nodup :=
      (List.nodup_append.1 hwf.1).1
    simp only [Command.positional]
    cases hai : cmd.Args[i]? with
    | none => simp
    | some a =>
      have hnot : a.Value.field ∉ (cmd.Args.take t.length).map fun a => a.Value.field := by
        rw [List.map_take]
        exact not_mem_take_of_nodup _ _ i _ hndA hi (by simp [hai])
      simp only [Option.some_bind]
      exact setArgs_getElem?_of_not_mem _ _ _ _ _ hst' _ hnot
  · intro hwf
    simp only [Command.variadic]
    cases hva : cmd.VarArgs with
    | none => simp
    | some va =>
      have hnot : va.Value.field ∉ (cmd.Args.take t.length).map fun a => a.Value.field := by
        intro hmem
        have hdis := (List.nodup_append.1 hwf.1).2.2
        have h1 : va.Value.field ∈ cmd.Args.map fun a => a.Value.field := by
          rw [List.map_take] at hmem
          exact List.mem_of_mem_take hmem
        exact hdis h1 (by simp [hva])
      simp only [Option.some_bind]
      exact setArgs_getElem?_of_not_mem _ _ _ _ _ hst' _ hnot

/-- C2 (amended), witness: the descriptor with required `Name` and sequence
`Files`, parsed with the empty token list. -/
theorem Parse_missing_required_no_error_witness :
    ([] : List GoString).length < (nameFilesCommand.Args.filter fun a => !a.Optional).length ∧
      ∃ cmd', nameFilesCommand.Parse [] = .ok (cmd', none) ∧ cmd'.Args = nameFilesCommand.Args ∧
        cmd'.VarArgs = nameFilesCommand.VarArgs ∧
        (nameFilesCommand.WellFormed →
          ∀ i, ([] : List GoString).length ≤ i →
            cmd'.positional i = nameFilesCommand.positional i) ∧
        (nameFilesCommand.WellFormed → cmd'.variadic = nameFilesCommand.variadic) :=
  ⟨by decide,
    Parse_missing_required_no_error nameFilesCommand [] (by decide)
      (by intro s hs; cases hs) (by intro p hp; cases hp)⟩


/-! ## What registration does with each field -/

theorem Outcome.bind_eq_ok {α β : Type} {x : Outcome α} {f : α → Outcome β} {b : β}
    (h : x.bind f = .ok b) : ∃ a, x = .ok a ∧ f a = .ok b := by
  cases x with
  | ok a => exact ⟨a, rfl, h⟩
  | panic m => simp [Outcome.bind] at h
  | exit c => simp [Outcome.bind] at h
  | outOfFuel => simp [Outcome.bind] at h

theorem NewValueBinding_ok (i : Nat) (k : Kind) (d : GoString) (st st' : Store)
    (b : Option Binding) (h : NewValueBinding i k d st = .ok (b, st')) :
    st'.length = st.length ∧
      (match k with
        | .bool => b = some (.boolValue i)
        | .string => b = some (.stringValue i)
        | .slice e => b = some (.sliceValue i e) ∧ st' = st
        | .other _ => b = none ∧ st' = st) := by
  unfold NewValueBinding at h
  cases k with
  | bool =>
    by_cases hd : d = []
    · simp [hd] at h; simp [h.1, ← h.2]
    · simp [hd, Binding.Set, Outcome.bind] at h; simp [h.1, ← h.2]
  | string =>
    by_cases hd : d = []
    · simp [hd] at h; simp [h.1, ← h.2]
    · simp [hd, Binding.Set, Outcome.bind] at h; simp [h.1, ← h.2]
  | slice e =>
    by_cases hd : d = []
    · simp [hd] at h; simp [h.1, ← h.2]
    · simp [hd, Binding.Set, Outcome.bind] at h
  | other n => simp at h; simp [h.1, ← h.2]

theorem addArg_spec (cmd cmd' : Command) (i : Nat) (k : Kind) (opt : Bool)
    (name d descr : GoString) (h : cmd.addArg i k opt name d descr = .ok cmd') :
    cmd'.opts.length = cmd.opts.length ∧ cmd'.Options = cmd.Options ∧
      (∀ n, k = .other n → cmd' = cmd) ∧
      (∀ e, k = .slice e → cmd.VarArgs = none ∧ cmd'.Args = cmd.Args ∧
        cmd'.VarArgs = some ⟨name, descr, opt, .sliceValue i e⟩) ∧
      (k = .bool → cmd'.VarArgs = cmd.VarArgs ∧
        cmd'.Args = cmd.Args ++ [⟨name, descr, opt, .boolValue i⟩]) ∧
      (k = .string → cmd'.VarArgs = cmd.VarArgs ∧
        cmd'.Args = cmd.Args ++ [⟨name, descr, opt, .stringValue i⟩]) := by
  unfold Command.addArg at h
  obtain ⟨r, hr, h⟩ := Outcome.bind_eq_ok h
  obtain ⟨b, st'⟩ := r
  have hb := NewValueBinding_ok i k d cmd.opts st' b hr
  cases k with
  | bool =>
    simp only at hb
    obtain ⟨hl, rfl⟩ := hb
    simp at h; subst h; simp [hl]
  | string =>
    simp only at hb
    obtain ⟨hl, rfl⟩ := hb
    simp at h; subst h; simp [hl]
  | slice e =>
    simp only at hb
    obtain ⟨hl, rfl, rfl⟩ := hb
    cases hva : cmd.VarArgs with
    | none => simp [hva] at h; subst h; simp
    | some va => simp [hva] at h
  | other n =>
    simp only at hb
    obtain ⟨hl, rfl, rfl⟩ := hb
    simp at h; subst h; simp

theorem addOption_spec (cmd cmd' : Command) (i : Nat) (k : Kind)
    (name d descr : GoString) (h : cmd.addOption i k name d descr = .ok cmd') :
    cmd'.opts.length = cmd.opts.length ∧ cmd'.Args = cmd.Args ∧ cmd'.VarArgs = cmd.VarArgs ∧
      (∀ n, k = .other n → cmd' = cmd) ∧
      (k.supported → ∃ fl, fl.Value.field = i ∧
        cmd'.Options.formal = cmd.Options.formal ++ [fl]) := by
  unfold Command.addOption at h
  obtain ⟨r, hr, h⟩ := Outcome.bind_eq_ok h
  obtain ⟨b, st'⟩ := r
  have hb := NewValueBinding_ok i k d cmd.opts st' b hr
  have hvar : ∀ (val : Binding) (fs : FlagSet), cmd.Options.Var val name descr st' = .ok fs →
      ∃ fl, fl.Value = val ∧ fs.formal = cmd.Options.formal ++ [fl] := by
    intro val fs hfs
    unfold FlagSet.Var at hfs
    split at hfs
    · cases hfs
    · split at hfs
      · cases hfs
      · split at hfs
        · cases hfs
        · injection hfs with hfs
          subst hfs
          exact ⟨_, rfl, rfl⟩
  cases k with
  | bool =>
    simp only at hb
    obtain ⟨hl, rfl⟩ := hb
    simp only at h
    obtain ⟨fs, hfs, h⟩ := Outcome.bind_eq_ok h
    injection h with h
    subst h
    obtain ⟨fl, hfl, hformal⟩ := hvar _ _ hfs
    exact ⟨hl, rfl, rfl, fun n hn => (by cases hn), fun _ => ⟨fl, by simp [hfl, Binding.field], hformal⟩⟩
  | string =>
    simp only at hb
    obtain ⟨hl, rfl⟩ := hb
    simp only at h
    obtain ⟨fs, hfs, h⟩ := Outcome.bind_eq_ok h
    injection h with h
    subst h
    obtain ⟨fl, hfl, hformal⟩ := hvar _ _ hfs
    exact ⟨hl, rfl, rfl, fun n hn => (by cases hn), fun _ => ⟨fl, by simp [hfl, Binding.field], hformal⟩⟩
  | slice e =>
    simp only at hb
    obtain ⟨hl, rfl, rfl⟩ := hb
    simp only at h
    obtain ⟨fs, hfs, h⟩ := Outcome.bind_eq_ok h
    injection h with h
    subst h
    obtain ⟨fl, hfl, hformal⟩ := hvar _ _ hfs
    exact ⟨hl, rfl, rfl, fun n hn => (by cases hn), fun _ => ⟨fl, by simp [hfl, Binding.field], hformal⟩⟩
  | other n =>
    simp only at hb
    obtain ⟨hl, rfl, rfl⟩ := hb
    simp at h; subst h
    exact ⟨rfl, rfl, rfl, fun _ _ => rfl, fun hs => hs.elim⟩

theorem processField_spec (U : UnicodeTables) (cmd cmd' : Command) (i : Nat) (f : Field)
    (h : cmd.processField U i f = .ok cmd') :
    cmd'.opts.length = cmd.opts.length ∧
      (¬ f.kind.supported → cmd' = cmd) ∧
      (f.kind.supported → cmd'.boundFields.Perm (i :: cmd.boundFields)) ∧
      (f.positionalMarker → ∀ e, f.kind = .slice e →
        ∃ va, cmd'.VarArgs = some va ∧ va.Value = .sliceValue i e) ∧
      (¬ f.positionalMarker → cmd'.VarArgs = cmd.VarArgs ∧ cmd'.Args = cmd.Args ∧
        (f.kind.supported → ∃ fl ∈ cmd'.Options.formal, fl.Value.field = i)) ∧
      (∀ va, cmd.VarArgs = some va → cmd'.VarArgs = some va) := by
  unfold Command.processField at h
  obtain ⟨name, _, h⟩ := Outcome.bind_eq_ok h
  simp only at h
  have hperm1 : ∀ (A V F : List Nat), ((A ++ [i]) ++ V ++ F).Perm (i :: (A ++ V ++ F)) := by
    intro A V F
    simp
  have hperm2 : ∀ (A F : List Nat), (A ++ [i] ++ F).Perm (i :: (A ++ [] ++ F)) := by
    intro A F
    simp
  have hperm3 : ∀ (P F : List Nat), (P ++ (F ++ [i])).Perm (i :: (P ++ F)) := by
    intro P F
    simpa using (List.perm_append_singleton i (P ++ F))
  have hkinds : ∀ k : Kind, k.supported → k = .bool ∨ k = .string ∨ ∃ e, k = .slice e := by
    intro k hk
    cases k with
    | bool => exact Or.inl rfl
    | string => exact Or.inr (Or.inl rfl)
    | slice e => exact Or.inr (Or.inr ⟨e, rfl⟩)
    | other n => exact hk.elim
  have hother : ∀ k : Kind, ¬ k.supported → ∃ n, k = .other n := by
    intro k hk
    cases k with
    | other n => exact ⟨n, rfl⟩
    | bool => exact absurd trivial hk
    | string => exact absurd trivial hk
    | slice e => exact absurd trivial hk
  by_cases hm : f.positionalMarker
  · -- a positional parameter
    have harg : ∃ opt, cmd.addArg i f.kind opt name (parseFieldTag f.Tag).1
        (parseFieldTag f.Tag).2.1 = .ok cmd' := by
      rcases hm with hm | hm
      · exact ⟨false, by simpa [hm] using h⟩
      · have h33 : ¬ (parseFieldTag f.Tag).2.2 = 33 := by rw [hm]; decide
        exact ⟨true, by simpa [hm, h33] using h⟩
    obtain ⟨opt, harg⟩ := harg
    obtain ⟨hl, hopt, hko, hks, hkb, hkstr⟩ := addArg_spec _ _ _ _ _ _ _ _ harg
    refine ⟨hl, ?_, ?_, ?_, fun hn => absurd hm hn, ?_⟩
    · intro hs
      obtain ⟨n, hn⟩ := hother _ hs
      exact hko n hn
    · intro hs
      rcases hkinds _ hs with hk | hk | ⟨e, hk⟩
      · obtain ⟨h1, h2⟩ := hkb hk
        simp only [Command.boundFields, Command.positionalFields, Command.flagFields, h1,
          h2, hopt, List.map_append, List.map_cons, List.map_nil, Binding.field]
        exact hperm1 _ _ _
      · obtain ⟨h1, h2⟩ := hkstr hk
        simp only [Command.boundFields, Command.positionalFields, Command.flagFields, h1,
          h2, hopt, List.map_append, List.map_cons, List.map_nil, Binding.field]
        exact hperm1 _ _ _
      · obtain ⟨h1, h2, h3⟩ := hks e hk
        simp only [Command.boundFields, Command.positionalFields, Command.flagFields, h1,
          h2, h3, hopt, Option.toList, List.map_cons, List.map_nil, Binding.field]
        exact hperm2 _ _
    · intro _ e hkind
      exact ⟨_, (hks e hkind).2.2, rfl⟩
    · intro va hva
      by_cases hs : f.kind.supported
      · rcases hkinds _ hs with hk | hk | ⟨e, hk⟩
        · rw [(hkb hk).1]; exact hva
        · rw [(hkstr hk).1]; exact hva
        · rw [(hks e hk).1] at hva; cases hva
      · obtain ⟨n, hn⟩ := hother _ hs
        rw [hko n hn]; exact hva
  · -- a flag
    have h33 : ¬ (parseFieldTag f.Tag).2.2 = 33 := fun h' => hm (Or.inl h')
    have h63 : ¬ (parseFieldTag f.Tag).2.2 = 63 := fun h' => hm (Or.inr h')
    simp only [h33, h63, if_false] at h
    obtain ⟨hl, hargs, hva, hko, hks⟩ := addOption_spec _ _ _ _ _ _ _ h
    refine ⟨hl, ?_, ?_, fun hm' => absurd hm' hm, fun _ => ⟨hva, hargs, ?_⟩,
      fun va hv => by rw [hva]; exact hv⟩
    · intro hs
      obtain ⟨n, hn⟩ := hother _ hs
      exact hko n hn
    · intro hs
      obtain ⟨fl, hfl, hformal⟩ := hks hs
      simp only [Command.boundFields, Command.positionalFields, Command.flagFields, hargs,
        hva, hformal, List.map_append, List.map_cons, List.map_nil, hfl]
      exact hperm3 _ _
    · intro hs
      obtain ⟨fl, hfl, hformal⟩ := hks hs
      exact ⟨fl, by simp [hformal], hfl⟩

theorem processFields_inv (U : UnicodeTables) (fields : List Field) :
    ∀ (fs : List Field) (n : Nat) (cmd cmd' : Command), fields.drop n = fs →
      processFields U fs n cmd = .ok cmd' → FieldsInv U fields n cmd →
      FieldsInv U fields fields.length cmd' ∧ cmd'.opts.length = cmd.opts.length ∧
        cmd'.main = cmd.main := by
  intro fs
  induction fs with
  | nil =>
    intro n cmd cmd' hdrop h hinv
    simp only [processFields] at h
    injection h with h
    subst h
    have hn : fields.length ≤ n := by
      by_contra hlt
      have : (fields.drop n).length = 0 := by rw [hdrop]; rfl
      simp at this
      omega
    obtain ⟨h1, h2, h3, h4⟩ := hinv
    refine ⟨⟨h1, ?_, ?_, ?_⟩, rfl, rfl⟩
    · intro j hj
      obtain ⟨_, f, hf, hrest⟩ := h2 j hj
      have : j < fields.length := by
        have := (List.getElem?_eq_some.1 hf).1
        exact this
      exact ⟨this, f, hf, hrest⟩
    · intro j f e hj
      exact h3 j f e (by omega)
    · intro j f hj
      exact h4 j f (by omega)
  | cons f rest ih =>
    intro n cmd cmd' hdrop h hinv
    have hfn : fields[n]? = some f := by
      have := congrArg List.head? hdrop
      simpa [List.head?_drop] using this
    have hrest : fields.drop (n + 1) = rest := by
      rw [← List.tail_drop, hdrop]; rfl
    obtain ⟨h1, h2, h3, h4⟩ := hinv
    have hnotin : n ∉ cmd.boundFields := fun hmem => by
      have := (h2 n hmem).1
      omega
    rw [processFields] at h
    by_cases hexp : isLu U (decodeRune f.Name).1 = true
    · rw [if_pos hexp] at h
      obtain ⟨cmd1, hstep, h⟩ := Outcome.bind_eq_ok h
      obtain ⟨hl, hskip, hperm, hslice, hflag, hkeep⟩ := processField_spec U cmd cmd1 n f hstep
      have hinv1 : FieldsInv U fields (n + 1) cmd1 := by
        by_cases hs : f.kind.supported
        · have hp := hperm hs
          refine ⟨?_, ?_, ?_, ?_⟩
          · rw [hp.nodup_iff]; exact List.nodup_cons.2 ⟨hnotin, h1⟩
          · intro j hj
            rcases List.mem_cons.1 (hp.mem_iff.1 hj) with rfl | hj'
            · exact ⟨by omega, f, hfn, hexp, hs⟩
            · obtain ⟨hlt, hx⟩ := h2 j hj'
              exact ⟨by omega, hx⟩
          · intro j g e hj hg hge hgm hgk
            by_cases hjn : j = n
            · subst hjn
              rw [hfn] at hg
              injection hg with hg
              subst hg
              exact hslice hgm e hgk
            · obtain ⟨va, hva, hval⟩ := h3 j g e (by omega) hg hge hgm hgk
              exact ⟨va, hkeep va hva, hval⟩
          · intro j g hj hg hge hgm hgk
            by_cases hjn : j = n
            · subst hjn
              rw [hfn] at hg
              injection hg with hg
              subst hg
              exact (hflag hgm).2.2 hgk
            · obtain ⟨fl, hfl, hflf⟩ := h4 j g (by omega) hg hge hgm hgk
              refine ⟨fl, ?_, hflf⟩
              have hsub : fl.Value.field ∈ cmd1.boundFields := by
                rw [hp.mem_iff]
                refine List.mem_cons_of_mem _ ?_
                simp only [Command.boundFields, Command.flagFields, List.mem_append, List.mem_map]
                exact Or.inr ⟨fl, hfl, rfl⟩
              -- the flag set only grows
              by_cases hfm : f.positionalMarker
              · have hopt : cmd1.Options = cmd.Options := by
                  unfold Command.processField at hstep
                  obtain ⟨name, _, hstep⟩ := Outcome.bind_eq_ok hstep
                  simp only at hstep
                  rcases hfm with hfm | hfm
                  · rw [if_pos hfm] at hstep
                    exact (addArg_spec _ _ _ _ _ _ _ _ hstep).2.1
                  · have h33 : ¬ (parseFieldTag f.Tag).2.2 = 33 := by rw [hfm]; decide
                    rw [if_neg h33, if_pos hfm] at hstep
                    exact (addArg_spec _ _ _ _ _ _ _ _ hstep).2.1
                rw [hopt]; exact hfl
              · unfold Command.processField at hstep
                obtain ⟨name, _, hstep⟩ := Outcome.bind_eq_ok hstep
                simp only at hstep
                have h33 : ¬ (parseFieldTag f.Tag).2.2 = 33 := fun h' => hfm (Or.inl h')
                have h63 : ¬ (parseFieldTag f.Tag).2.2 = 63 := fun h' => hfm (Or.inr h')
                rw [if_neg h33, if_neg h63] at hstep
                obtain ⟨fl', _, hformal⟩ := (addOption_spec _ _ _ _ _ _ _ hstep).2.2.2.2 hs
                rw [hformal]
                exact List.mem_append_left _ hfl
        · have hc := hskip hs
          subst hc
          refine ⟨h1, ?_, ?_, ?_⟩
          · intro j hj
            obtain ⟨hlt, hx⟩ := h2 j hj
            exact ⟨by omega, hx⟩
          · intro j g e hj hg hge hgm hgk
            by_cases hjn : j = n
            · subst hjn
              rw [hfn] at hg
              injection hg with hg
              subst hg
              rw [hgk] at hs
              exact absurd trivial hs
            · exact h3 j g e (by omega) hg hge hgm hgk
          · intro j g hj hg hge hgm hgk
            by_cases hjn : j = n
            · subst hjn
              rw [hfn] at hg
              injection hg with hg
              subst hg
              exact absurd hgk hs
            · exact h4 j g (by omega) hg hge hgm hgk
      obtain ⟨hfin, hlen, hmain⟩ := ih (n + 1) cmd1 cmd' hrest h hinv1
      have hmain1 : cmd1.main = cmd.main := by
        unfold Command.processField at hstep
        obtain ⟨name, _, hstep⟩ := Outcome.bind_eq_ok hstep
        simp only at hstep
        split at hstep
        · unfold Command.addArg at hstep
          obtain ⟨r, _, hstep⟩ := Outcome.bind_eq_ok hstep
          split at hstep
          · injection hstep with hstep; subst hstep; rfl
          · split at hstep
            · split at hstep
              · cases hstep
              · injection hstep with hstep; subst hstep; rfl
            · injection hstep with hstep; subst hstep; rfl
        · split at hstep
          · unfold Command.addArg at hstep
            obtain ⟨r, _, hstep⟩ := Outcome.bind_eq_ok hstep
            split at hstep
            · injection hstep with hstep; subst hstep; rfl
            · split at hstep
              · split at hstep
                · cases hstep
                · injection hstep with hstep; subst hstep; rfl
              · injection hstep with hstep; subst hstep; rfl
          · unfold Command.addOption at hstep
            obtain ⟨r, _, hstep⟩ := Outcome.bind_eq_ok hstep
            split at hstep
            · injection hstep with hstep; subst hstep; rfl
            · obtain ⟨fs, _, hstep⟩ := Outcome.bind_eq_ok hstep
              injection hstep with hstep; subst hstep; rfl
      exact ⟨hfin, by rw [hlen, hl], by rw [hmain, hmain1]⟩
    · rw [if_neg hexp] at h
      have hinv1 : FieldsInv U fields (n + 1) cmd := by
        refine ⟨h1, ?_, ?_, ?_⟩
        · intro j hj
          obtain ⟨hlt, hx⟩ := h2 j hj
          exact ⟨by omega, hx⟩
        · intro j g e hj hg hge hgm hgk
          by_cases hjn : j = n
          · subst hjn
            rw [hfn] at hg
            injection hg with hg
            subst hg
            exact absurd hge hexp
          · exact h3 j g e (by omega) hg hge hgm hgk
        · intro j g hj hg hge hgm hgk
          by_cases hjn : j = n
          · subst hjn
            rw [hfn] at hg
            injection hg with hg
            subst hg
            exact absurd hge hexp
          · exact h4 j g (by omega) hg hge hgm hgk
      exact ih (n + 1) cmd cmd' hrest h hinv1

/-! ## The name translator returns -/

theorem replaceLoop_some (re : Regex) (tmpl : List TemplateItem) (src : GoString) :
    ∀ (fuel searchPos lastMatchEnd : Nat) (buf : GoString),
      src.length + 2 ≤ fuel + min searchPos (src.length + 1) →
      ∃ x, replaceLoop re tmpl src fuel searchPos lastMatchEnd buf = some (buf ++ x) := by
  intro fuel
  induction fuel with
  | zero => intro sp lme buf h; omega
  | succ fuel ih =>
    intro sp lme buf h
    rw [replaceLoop]
    by_cases hsp : sp ≤ src.length
    · rw [if_pos hsp]
      cases hs : re.search (src.drop sp) with
      | none => exact ⟨_, rfl⟩
      | some m =>
        obtain ⟨k, l, c⟩ := m
        simp only
        have hB : ∃ y, (if lme < sp + k + l ∨ sp + k = 0 then
              buf ++ (src.take (sp + k)).drop lme ++ expand tmpl c
            else buf ++ (src.take (sp + k)).drop lme) = buf ++ y := by
          split
          · exact ⟨_, List.append_assoc _ _ _⟩
          · exact ⟨_, rfl⟩
        obtain ⟨y, hy⟩ := hB
        rw [hy]
        split
        · obtain ⟨x, hx⟩ := ih (sp + (decodeRune (src.drop sp)).2) (sp + k + l) (buf ++ y)
            (by omega)
          exact ⟨y ++ x, by rw [hx, List.append_assoc]⟩
        · split
          · obtain ⟨x, hx⟩ := ih (sp + 1) (sp + k + l) (buf ++ y) (by omega)
            exact ⟨y ++ x, by rw [hx, List.append_assoc]⟩
          · obtain ⟨x, hx⟩ := ih (sp + k + l) (sp + k + l) (buf ++ y) (by omega)
            exact ⟨y ++ x, by rw [hx, List.append_assoc]⟩
    · rw [if_neg hsp]
      exact ⟨_, rfl⟩

theorem ReplaceAllString_some (re : Regex) (tmpl : List TemplateItem) (src : GoString)
    (htmpl : ∀ c, expand tmpl c ≠ []) (hsrc : src ≠ []) :
    ∃ r, ReplaceAllString re src tmpl = some r ∧ r ≠ [] := by
  unfold ReplaceAllString
  rw [replaceLoop, if_pos (Nat.zero_le _)]
  cases hs : re.search (src.drop 0) with
  | none => exact ⟨_, rfl, by simpa using hsrc⟩
  | some m =>
    obtain ⟨k, l, c⟩ := m
    simp only
    have hcond : 0 < 0 + k + l ∨ 0 + k = 0 := by omega
    rw [if_pos hcond]
    have hne : ([] : GoString) ++ (src.take (0 + k)).drop 0 ++ expand tmpl c ≠ [] := by
      simp [htmpl c]
    split
    · obtain ⟨x, hx⟩ := replaceLoop_some re tmpl src (src.length + 1)
        (0 + (decodeRune (src.drop 0)).2) (0 + k + l)
        ([] ++ (src.take (0 + k)).drop 0 ++ expand tmpl c) (by omega)
      exact ⟨_, hx, by simp [htmpl c]⟩
    · split
      · obtain ⟨x, hx⟩ := replaceLoop_some re tmpl src (src.length + 1) (0 + 1) (0 + k + l)
          ([] ++ (src.take (0 + k)).drop 0 ++ expand tmpl c) (by omega)
        exact ⟨_, hx, by simp [htmpl c]⟩
      · obtain ⟨x, hx⟩ := replaceLoop_some re tmpl src (src.length + 1) (0 + k + l)
          (0 + k + l) ([] ++ (src.take (0 + k)).drop 0 ++ expand tmpl c) (by omega)
        exact ⟨_, hx, by simp [htmpl c]⟩

theorem lit_dash : lit "-" = [45] := by decide

theorem expand_template1 (c : Caps) :
    expand [.text (lit "-"), .group 1, .group 2, .text (lit "-"), .group 3] c ≠ [] := by
  simp [expand, lit_dash]

theorem expand_template2 (c : Caps) :
    expand [.group 1, .group 2, .text (lit "-")] c ≠ [] := by
  simp [expand, lit_dash]

/-- `translateFieldName` returns a name for every non-empty field name: the
replacement loops finish and `s[len(s)-1]` is in range. -/
theorem translateFieldName_ok (U : UnicodeTables) (s : GoString) (hs : s ≠ []) :
    ∃ r, translateFieldName U s = .ok r := by
  obtain ⟨s1, h1, hne1⟩ := ReplaceAllString_some (optionNameRegex1 U)
    [.text (lit "-"), .group 1, .group 2, .text (lit "-"), .group 3] s expand_template1 hs
  obtain ⟨s2, h2, hne2⟩ := ReplaceAllString_some (optionNameRegex2 U)
    [.group 1, .group 2, .text (lit "-")] s1 expand_template2 hne1
  cases hl : s2.getLast? with
  | none => simp at hl; exact absurd hl hne2
  | some b =>
    exact ⟨ToLower U (if b = 45 then s2.dropLast else s2), by
      simp only [translateFieldName, h1, h2, hl]⟩

/-! ## What `NewCommand` builds -/

theorem NewCommand_inv (U : UnicodeTables) (name descr : GoString) (fields : List Field)
    (acc : Bool) (cmd : Command)
    (h : NewCommand U name descr (.params (.elemStruct fields) acc) = .ok cmd) :
    FieldsInv U fields fields.length cmd ∧ cmd.opts.length = fields.length := by
  unfold NewCommand at h
  simp only at h
  obtain ⟨cmd1, h1, h2⟩ := Outcome.bind_eq_ok h
  injection h2 with h2
  subst h2
  have hinit : FieldsInv U fields 0
      { Name := name, Description := descr, Options := NewFlagSet name .ExitOnError,
        OptionCount := 0, Args := [], VarArgs := none, Program := none,
        main := some (.reflectCall acc), opts := fields.map fun fld => fld.kind.zero } := by
    refine ⟨by simp [Command.boundFields, Command.positionalFields, Command.flagFields,
      NewFlagSet], ?_, ?_, ?_⟩
    · intro j hj
      simp [Command.boundFields, Command.positionalFields, Command.flagFields,
        NewFlagSet] at hj
    · intro j f e hj; omega
    · intro j f hj; omega
  obtain ⟨hinv, hlen, _⟩ := processFields_inv U fields fields 0 _ cmd1 (by simp) h1 hinit
  exact ⟨hinv, by simpa using hlen⟩

/-- Every command that `NewCommand` returns has its positional parameters and
its variadic slot bound to different, existing fields. -/
theorem NewCommand_wellFormed (U : UnicodeTables) (name descr : GoString) (f : Handler)
    (cmd : Command) (h : NewCommand U name descr f = .ok cmd) : cmd.WellFormed := by
  cases f with
  | notFunc => simp [NewCommand] at h
  | noParams plain =>
    cases plain with
    | true =>
      simp only [NewCommand] at h
      injection h with h
      subst h
      exact ⟨by simp [Command.positionalFields], by simp [Command.positionalFields]⟩
    | false => simp [NewCommand] at h
  | params in0 acc =>
    cases in0 with
    | noElem => simp [NewCommand] at h
    | elemNotStruct => simp [NewCommand] at h
    | elemStruct fields =>
      obtain ⟨⟨hnd, hmem, _, _⟩, hlen⟩ := NewCommand_inv U name descr fields acc cmd h
      refine ⟨(List.nodup_append.1 hnd).1, ?_⟩
      intro i hi
      have := (hmem i (List.mem_append_left _ hi)).1
      omega

set_option smartUnfolding false in
set_option maxRecDepth 100000 in
/-- C6, counterexample: for the descriptor with the exported field `Count` of
kind int, marked `!`, `NewCommand` returns a command; the field is in none of
its flags, positional parameters and variadic slot. -/
theorem NewCommand_int_field_returns :
    ∃ c, NewCommand asciiTables (lit "count") (lit "Count lines") intFieldHandler = .ok c ∧
      c.Options.formal = [] ∧ c.Args = [] ∧ c.VarArgs = none :=
  ⟨_, rfl, rfl, rfl, rfl⟩

/-- C6 (amended): a field whose storage kind is none of bool, string and slice
is skipped silently, whatever its annotation. Processing it returns the command
under construction unchanged (no panic, no error), and no command that
`NewCommand` returns has a flag, a positional parameter or a variadic slot bound
to it. -/
theorem NewCommand_skips_unsupported_kind (U : UnicodeTables) (name descr : GoString)
    (fields : List Field) (acc : Bool) (j : Nat) (f : Field)
    (hf : fields[j]? = some f) (hk : ¬ f.kind.supported) (hname : f.Name ≠ []) :
    (∀ c : Command, c.processField U j f = .ok c) ∧
      ∀ cmd, NewCommand U name descr (.params (.elemStruct fields) acc) = .ok cmd →
        j ∉ cmd.boundFields := by
  constructor
  · intro c
    obtain ⟨r, hr⟩ := translateFieldName_ok U f.Name hname
    cases hkind : f.kind with
    | other n =>
      simp only [Command.processField, hr, Outcome.bind_ok, hkind, Command.addArg,
        Command.addOption, NewValueBinding]
      split
      · rfl
      · split <;> rfl
    | bool => rw [hkind] at hk; exact absurd trivial hk
    | string => rw [hkind] at hk; exact absurd trivial hk
    | slice e => rw [hkind] at hk; exact absurd trivial hk
  · intro cmd hnew hmem
    obtain ⟨⟨_, hb, _, _⟩, _⟩ := NewCommand_inv U name descr fields acc cmd hnew
    obtain ⟨_, g, hg, _, hs⟩ := hb j hmem
    rw [hf] at hg
    injection hg with hg
    subst hg
    exact hk hs

/-- C6 (amended), witness: the descriptor with the int field `Count`. -/
theorem NewCommand_skips_unsupported_kind_witness :
    ([⟨lit "Count", lit "!", .other (lit "int")⟩] : List Field)[0]?
        = some ⟨lit "Count", lit "!", .other (lit "int")⟩ ∧
      ¬ (Kind.other (lit "int")).supported ∧ lit "Count" ≠ [] ∧
      (∀ c : Command,
        c.processField asciiTables 0 ⟨lit "Count", lit "!", .other (lit "int")⟩ = .ok c) ∧
      ∀ cmd, NewCommand asciiTables (lit "count") (lit "Count lines")
            (.params (.elemStruct [⟨lit "Count", lit "!", .other (lit "int")⟩]) true) = .ok cmd →
        0 ∉ cmd.boundFields :=
  ⟨rfl, fun h => h, by decide,
    NewCommand_skips_unsupported_kind asciiTables (lit "count") (lit "Count lines")
      [⟨lit "Count", lit "!", .other (lit "int")⟩] true 0 ⟨lit "Count", lit "!", .other (lit "int")⟩
      rfl (fun h => h) (by decide)⟩

set_option smartUnfolding false in
set_option maxRecDepth 100000 in
/-- C7, counterexample: the exported sequence field `Files` without role marker
is registered in the flag set, and the command has no variadic slot. -/
theorem NewCommand_slice_without_marker_is_flag :
    ∃ c, NewCommand asciiTables (lit "ls") (lit "List files") sliceFlagHandler = .ok c ∧
      c.VarArgs = none ∧
      c.Options.formal
        = [⟨lit "files", lit "Some files", .sliceValue 0 .string, lit "<[]string Value>"⟩] :=
  ⟨_, rfl, rfl, rfl⟩

/-- C7 (amended): for every descriptor and every exported sequence field whose
annotation gives the role marker `!` or `?`, a command built by `NewCommand`
has that field as its variadic slot; the field is bound by no flag and by no
scalar positional parameter. -/
theorem NewCommand_marked_slice_is_variadic (U : UnicodeTables) (name descr : GoString)
    (fields : List Field) (acc : Bool) (cmd : Command) (j : Nat) (f : Field) (e : Kind)
    (hnew : NewCommand U name descr (.params (.elemStruct fields) acc) = .ok cmd)
    (hf : fields[j]? = some f) (hexp : f.exported U) (hm : f.positionalMarker)
    (hk : f.kind = .slice e) :
    (∃ va, cmd.VarArgs = some va ∧ va.Value = .sliceValue j e) ∧
      (∀ fl ∈ cmd.Options.formal, fl.Value.field ≠ j) ∧
      (∀ a ∈ cmd.Args, a.Value.field ≠ j) := by
  obtain ⟨⟨hnd, _, hva, _⟩, _⟩ := NewCommand_inv U name descr fields acc cmd hnew
  have hlt : j < fields.length := (List.getElem?_eq_some.1 hf).1
  obtain ⟨va, hcva, hval⟩ := hva j f e hlt hf hexp hm hk
  have hvj : va.Value.field = j := by rw [hval]; rfl
  simp only [Command.boundFields, Command.positionalFields, Command.flagFields, hcva,
    Option.toList, List.map_cons, List.map_nil, hvj] at hnd
  refine ⟨⟨va, hcva, hval⟩, ?_, ?_⟩
  · intro fl hfl heq
    have hdis := (List.nodup_append.1 hnd).2.2
    exact hdis (List.mem_append_right _ (List.mem_singleton.2 rfl))
      (List.mem_map.2 ⟨fl, hfl, heq⟩)
  · intro a ha heq
    have hdis := (List.nodup_append.1 (List.nodup_append.1 hnd).1).2.2
    exact hdis (List.mem_map.2 ⟨a, ha, heq⟩) (List.mem_singleton.2 rfl)

/-- C7 (amended), witness: the sequence field `Files` marked `!` of the
descriptor with `Name` and `Files`. -/
theorem NewCommand_marked_slice_is_variadic_witness :
    (∃ va, nameFilesCommand.VarArgs = some va ∧ va.Value = .sliceValue 1 .string) ∧
      (∀ fl ∈ nameFilesCommand.Options.formal, fl.Value.field ≠ 1) ∧
      (∀ a ∈ nameFilesCommand.Args, a.Value.field ≠ 1) :=
  NewCommand_marked_slice_is_variadic asciiTables (lit "get") (lit "Get files")
    [⟨lit "Name", lit "!", .string⟩, ⟨lit "Files", lit "!", .slice .string⟩] true
    nameFilesCommand 1 ⟨lit "Files", lit "!", .slice .string⟩ .string
    (NewCommand_nameFiles asciiTables) rfl
    (by show isLu asciiTables (decodeRune (lit "Files")).1 = true; decide)
    (Or.inl (by decide)) rfl


/-! ## Quoting and unquoting -/

theorem quoteBody_skip (U : UnicodeTables) (s : GoString) (k : Nat) :
    quoteBody U s k = quoteBody U (s.drop k) 0 := by
  induction s generalizing k with
  | nil => cases k <;> simp [quoteBody]
  | cons b t ih =>
    cases k with
    | zero => simp
    | succ k => simp [quoteBody, ih k]

theorem unquoteLoop_skip (s : GoString) (k : Nat) (buf : GoString) :
    unquoteLoop s k buf = unquoteLoop (s.drop k) 0 buf := by
  induction s generalizing k with
  | nil => cases k <;> simp [unquoteLoop]
  | cons b t ih =>
    cases k with
    | zero => simp
    | succ k => simp [unquoteLoop, ih k]

theorem scanQuote_skip (s : GoString) (i k : Nat) (hk : k ≤ s.length) :
    scanQuote s i k = scanQuote (s.drop k) (i + k) 0 := by
  induction s generalizing i k with
  | nil =>
    have : k = 0 := by simpa using hk
    subst this; simp
  | cons b t ih =>
    cases k with
    | zero => simp
    | succ k =>
      simp only [scanQuote, List.drop_succ_cons]
      rw [ih (i + 1) k (by simpa using hk)]
      congr 1
      omega

theorem unhex_lowerhex (d : Nat) (hd : d < 16) : unhex (lowerhex d) = some d := by
  unfold unhex lowerhex
  by_cases h : d < 10
  · have h1 : 48 ≤ 48 + d ∧ 48 + d ≤ 57 := by omega
    simp [h, h1]
  · have h1 : ¬ (48 ≤ 87 + d ∧ 87 + d ≤ 57) := by omega
    have h2 : 97 ≤ 87 + d ∧ 87 + d ≤ 102 := by omega
    have h3 : 87 + d - 97 + 10 = d := by omega
    simp [h, h1, h2, h3]

theorem lowerhex_ne (d : Nat) (hd : d < 16) : lowerhex d ≠ 34 ∧ lowerhex d ≠ 92 := by
  unfold lowerhex
  split <;> omega

theorem unquoteLoop_step (b : Nat) (t buf : GoString) (r : Nat) (mb : Bool) (n : Nat)
    (hb : b ≠ 34) (hnl : b ≠ 10) (hu : UnquoteChar (b :: t) = some (r, mb, n)) (hn : 1 ≤ n) :
    unquoteLoop (b :: t) 0 buf
      = unquoteLoop ((b :: t).drop n) 0
          (buf ++ if r < 0x80 ∨ mb = false then [r % 256] else encodeRune r) := by
  rw [unquoteLoop, if_neg hb, hu]
  simp only [if_neg hnl]
  rw [unquoteLoop_skip]
  obtain ⟨n', rfl⟩ : ∃ n', n = n' + 1 := ⟨n - 1, by omega⟩
  simp

theorem goodChunk_hexByte (v : Nat) (hv : v < 256) :
    GoodChunk [92, 120, lowerhex (v / 16), lowerhex (v % 16)] [v] := by
  have h1 := unhex_lowerhex (v / 16) (by omega)
  have h2 := unhex_lowerhex (v % 16) (by omega)
  have n1 := lowerhex_ne (v / 16) (by omega)
  have n2 := lowerhex_ne (v % 16) (by omega)
  constructor
  · intro rest buf
    have hu : UnquoteChar (92 :: ([120, lowerhex (v / 16), lowerhex (v % 16)] ++ rest))
        = some (v, false, 4) := by
      simp only [UnquoteChar, List.cons_append, List.nil_append, readHex, h1, h2]
      simp
      omega
    have := unquoteLoop_step 92 _ buf v false 4 (by decide) (by decide) hu (by decide)
    simp only [List.cons_append, List.nil_append] at this ⊢
    rw [this]
    have hv' : v % 256 = v := Nat.mod_eq_of_lt hv
    simp [hv']
  · intro rest i
    simp [scanQuote, n1.1, n1.2, n2.1, n2.2]

theorem goodChunk_backslashed (r : Nat) (hr : r = 34 ∨ r = 92) : GoodChunk [92, r] [r] := by
  constructor
  · intro rest buf
    have hu : UnquoteChar (92 :: ([r] ++ rest)) = some (r, false, 2) := by
      rcases hr with rfl | rfl <;> simp [UnquoteChar]
    have := unquoteLoop_step 92 _ buf r false 2 (by decide) (by decide) hu (by decide)
    simp only [List.cons_append, List.nil_append] at this ⊢
    rw [this]
    rcases hr with rfl | rfl <;> simp
  · intro rest i
    simp [scanQuote]

theorem goodChunk_named (e v : Nat)
    (h : (e = 97 ∧ v = 7) ∨ (e = 98 ∧ v = 8) ∨ (e = 102 ∧ v = 12) ∨ (e = 110 ∧ v = 10) ∨
      (e = 114 ∧ v = 13) ∨ (e = 116 ∧ v = 9) ∨ (e = 118 ∧ v = 11)) :
    GoodChunk [92, e] [v] := by
  constructor
  · intro rest buf
    have hu : UnquoteChar (92 :: ([e] ++ rest)) = some (v, false, 2) := by
      rcases h with ⟨rfl, rfl⟩ | ⟨rfl, rfl⟩ | ⟨rfl, rfl⟩ | ⟨rfl, rfl⟩ | ⟨rfl, rfl⟩ | ⟨rfl, rfl⟩ |
        ⟨rfl, rfl⟩ <;> simp [UnquoteChar]
    have := unquoteLoop_step 92 _ buf v false 2 (by decide) (by decide) hu (by decide)
    simp only [List.cons_append, List.nil_append] at this ⊢
    rw [this]
    have hv : v % 256 = v := by
      rcases h with ⟨_, rfl⟩ | ⟨_, rfl⟩ | ⟨_, rfl⟩ | ⟨_, rfl⟩ | ⟨_, rfl⟩ | ⟨_, rfl⟩ |
        ⟨_, rfl⟩ <;> rfl
    simp [hv]
  · intro rest i
    simp [scanQuote]

theorem goodChunk_ascii (r : Nat) (h1 : 0x20 ≤ r) (h2 : r < 0x7F) (h3 : r ≠ 34) (h4 : r ≠ 92) :
    GoodChunk [r] [r] := by
  constructor
  · intro rest buf
    have hu : UnquoteChar (r :: rest) = some (r, false, 1) := by
      have : ¬ 128 ≤ r := by omega
      simp [UnquoteChar, h3, h4, this]
    have := unquoteLoop_step r rest buf r false 1 h3 (by omega) hu (by decide)
    simp only [List.cons_append, List.nil_append] at this ⊢
    rw [this]
    have hv : r % 256 = r := Nat.mod_eq_of_lt (by omega)
    simp [hv]
  · intro rest i
    simp [scanQuote, h3, h4]

theorem readHex4 (r : Nat) (hr : r < 0x10000) (rest : GoString) :
    readHex 4 (lowerhex (r / 4096 % 16) :: lowerhex (r / 256 % 16) :: lowerhex (r / 16 % 16)
      :: lowerhex (r % 16) :: rest) 0 = some r := by
  have e3 := unhex_lowerhex (r / 4096 % 16) (by omega)
  have e2 := unhex_lowerhex (r / 256 % 16) (by omega)
  have e1 := unhex_lowerhex (r / 16 % 16) (by omega)
  have e0 := unhex_lowerhex (r % 16) (by omega)
  simp only [readHex, e3, e2, e1, e0]
  congr 1
  omega

theorem readHex8 (r : Nat) (hr : r < 0x100000000) (rest : GoString) :
    readHex 8 (lowerhex (r / 268435456 % 16) :: lowerhex (r / 16777216 % 16)
      :: lowerhex (r / 1048576 % 16) :: lowerhex (r / 65536 % 16)
      :: lowerhex (r / 4096 % 16) :: lowerhex (r / 256 % 16) :: lowerhex (r / 16 % 16)
      :: lowerhex (r % 16) :: rest) 0 = some r := by
  have e7 := unhex_lowerhex (r / 268435456 % 16) (by omega)
  have e6 := unhex_lowerhex (r / 16777216 % 16) (by omega)
  have e5 := unhex_lowerhex (r / 1048576 % 16) (by omega)
  have e4 := unhex_lowerhex (r / 65536 % 16) (by omega)
  have e3 := unhex_lowerhex (r / 4096 % 16) (by omega)
  have e2 := unhex_lowerhex (r / 256 % 16) (by omega)
  have e1 := unhex_lowerhex (r / 16 % 16) (by omega)
  have e0 := unhex_lowerhex (r % 16) (by omega)
  simp only [readHex, e7, e6, e5, e4, e3, e2, e1, e0]
  congr 1
  omega

theorem goodChunk_u (r : Nat) (h1 : 0x80 ≤ r) (h2 : r < 0x10000) (hv : ValidRune r = true) :
    GoodChunk [92, 117, lowerhex (r / 4096 % 16), lowerhex (r / 256 % 16),
      lowerhex (r / 16 % 16), lowerhex (r % 16)] (encodeRune r) := by
  have n3 := lowerhex_ne (r / 4096 % 16) (by omega)
  have n2 := lowerhex_ne (r / 256 % 16) (by omega)
  have n1 := lowerhex_ne (r / 16 % 16) (by omega)
  have n0 := lowerhex_ne (r % 16) (by omega)
  constructor
  · intro rest buf
    have hu : UnquoteChar (92 :: ([117, lowerhex (r / 4096 % 16), lowerhex (r / 256 % 16),
        lowerhex (r / 16 % 16), lowerhex (r % 16)] ++ rest)) = some (r, true, 6) := by
      simp only [UnquoteChar, List.cons_append, List.nil_append, readHex4 r h2 rest]
      simp [hv]
    have := unquoteLoop_step 92 _ buf r true 6 (by decide) (by decide) hu (by decide)
    simp only [List.cons_append, List.nil_append] at this ⊢
    rw [this]
    have hlt : ¬ r < 128 := by omega
    simp [hlt]
  · intro rest i
    simp [scanQuote, n3.1, n3.2, n2.1, n2.2, n1.1, n1.2, n0.1, n0.2]

theorem goodChunk_U (r : Nat) (h1 : 0x10000 ≤ r) (h2 : r ≤ 0x10FFFF) :
    GoodChunk [92, 85, lowerhex (r / 268435456 % 16), lowerhex (r / 16777216 % 16),
      lowerhex (r / 1048576 % 16), lowerhex (r / 65536 % 16), lowerhex (r / 4096 % 16),
      lowerhex (r / 256 % 16), lowerhex (r / 16 % 16), lowerhex (r % 16)] (encodeRune r) := by
  have n7 := lowerhex_ne (r / 268435456 % 16) (by omega)
  have n6 := lowerhex_ne (r / 16777216 % 16) (by omega)
  have n5 := lowerhex_ne (r / 1048576 % 16) (by omega)
  have n4 := lowerhex_ne (r / 65536 % 16) (by omega)
  have n3 := lowerhex_ne (r / 4096 % 16) (by omega)
  have n2 := lowerhex_ne (r / 256 % 16) (by omega)
  have n1 := lowerhex_ne (r / 16 % 16) (by omega)
  have n0 := lowerhex_ne (r % 16) (by omega)
  have hv : ValidRune r = true := by
    have : 0xDFFF < r := by omega
    simp [ValidRune, this, h2]
  constructor
  · intro rest buf
    have hu : UnquoteChar (92 :: ([85, lowerhex (r / 268435456 % 16),
        lowerhex (r / 16777216 % 16), lowerhex (r / 1048576 % 16), lowerhex (r / 65536 % 16),
        lowerhex (r / 4096 % 16), lowerhex (r / 256 % 16), lowerhex (r / 16 % 16),
        lowerhex (r % 16)] ++ rest)) = some (r, true, 10) := by
      simp only [UnquoteChar, List.cons_append, List.nil_append, readHex8 r (by omega) rest]
      simp [hv]
    have := unquoteLoop_step 92 _ buf r true 10 (by decide) (by decide) hu (by decide)
    simp only [List.cons_append, List.nil_append] at this ⊢
    rw [this]
    have hlt : ¬ r < 128 := by omega
    simp [hlt]
  · intro rest i
    simp [scanQuote, n7.1, n7.2, n6.1, n6.2, n5.1, n5.2, n4.1, n4.2, n3.1, n3.2, n2.1, n2.2,
      n1.1, n1.2, n0.1, n0.2]

/-! ## UTF-8: decoding a well-formed sequence and encoding it again -/

theorem decodeRune_two (b0 b1 : Nat) (rest : GoString) (h0 : 0xC2 ≤ b0) (h0' : b0 < 0xE0)
    (h1 : 0x80 ≤ b1) (h1' : b1 ≤ 0xBF) :
    decodeRune (b0 :: b1 :: rest) = ((b0 % 32) * 64 + b1 % 64, 2) := by
  have c1 : ¬ b0 < 0x80 := by omega
  have c2 : ¬ b0 < 0xC2 := by omega
  simp [decodeRune, c1, c2, h0', isCont, h1, h1']

theorem decodeRune_three (b0 b1 b2 : Nat) (rest : GoString) (h0 : 0xE0 ≤ b0) (h0' : b0 < 0xF0)
    (h1 : acceptLo b0 ≤ b1) (h1' : b1 ≤ acceptHi b0) (h2 : 0x80 ≤ b2) (h2' : b2 ≤ 0xBF) :
    decodeRune (b0 :: b1 :: b2 :: rest)
      = ((b0 % 16) * 4096 + (b1 % 64) * 64 + b2 % 64, 3) := by
  have c1 : ¬ b0 < 0x80 := by omega
  have c2 : ¬ b0 < 0xC2 := by omega
  have c3 : ¬ b0 < 0xE0 := by omega
  simp [decodeRune, c1, c2, c3, h0', isCont, h1, h1', h2, h2']

theorem decodeRune_four (b0 b1 b2 b3 : Nat) (rest : GoString) (h0 : 0xF0 ≤ b0)
    (h0' : b0 < 0xF5) (h1 : acceptLo b0 ≤ b1) (h1' : b1 ≤ acceptHi b0) (h2 : 0x80 ≤ b2)
    (h2' : b2 ≤ 0xBF) (h3 : 0x80 ≤ b3) (h3' : b3 ≤ 0xBF) :
    decodeRune (b0 :: b1 :: b2 :: b3 :: rest)
      = ((b0 % 8) * 262144 + (b1 % 64) * 4096 + (b2 % 64) * 64 + b3 % 64, 4) := by
  have c1 : ¬ b0 < 0x80 := by omega
  have c2 : ¬ b0 < 0xC2 := by omega
  have c3 : ¬ b0 < 0xE0 := by omega
  have c4 : ¬ b0 < 0xF0 := by omega
  simp [decodeRune, c1, c2, c3, c4, h0', isCont, h1, h1', h2, h2', h3, h3']

theorem decodeRune_cases (b0 : Nat) (rest : GoString) :
    (b0 < 0x80 ∧ decodeRune (b0 :: rest) = (b0, 1)) ∨
      decodeRune (b0 :: rest) = (RuneError, 1) ∨
      (∃ b1 t, rest = b1 :: t ∧ 0xC2 ≤ b0 ∧ b0 < 0xE0 ∧ 0x80 ≤ b1 ∧ b1 ≤ 0xBF) ∨
      (∃ b1 b2 t, rest = b1 :: b2 :: t ∧ 0xE0 ≤ b0 ∧ b0 < 0xF0 ∧ acceptLo b0 ≤ b1 ∧
        b1 ≤ acceptHi b0 ∧ 0x80 ≤ b2 ∧ b2 ≤ 0xBF) ∨
      (∃ b1 b2 b3 t, rest = b1 :: b2 :: b3 :: t ∧ 0xF0 ≤ b0 ∧ b0 < 0xF5 ∧ acceptLo b0 ≤ b1 ∧
        b1 ≤ acceptHi b0 ∧ 0x80 ≤ b2 ∧ b2 ≤ 0xBF ∧ 0x80 ≤ b3 ∧ b3 ≤ 0xBF) := by
  by_cases c1 : b0 < 0x80
  · exact Or.inl ⟨c1, by simp [decodeRune, c1]⟩
  by_cases c2 : b0 < 0xC2
  · exact Or.inr (Or.inl (by simp [decodeRune, c1, c2]))
  by_cases c3 : b0 < 0xE0
  · cases rest with
    | nil => exact Or.inr (Or.inl (by simp [decodeRune, c1, c2, c3]))
    | cons b1 t =>
      by_cases hc : isCont b1 = true
      · simp only [isCont, Bool.and_eq_true, Nat.ble_eq] at hc
        exact Or.inr (Or.inr (Or.inl ⟨b1, t, rfl, by omega, c3, hc.1, hc.2⟩))
      · exact Or.inr (Or.inl (by simp [decodeRune, c1, c2, c3, hc]))
  by_cases c4 : b0 < 0xF0
  · match rest with
    | [] => exact Or.inr (Or.inl (by simp [decodeRune, c1, c2, c3, c4]))
    | [_] => exact Or.inr (Or.inl (by simp [decodeRune, c1, c2, c3, c4]))
    | b1 :: b2 :: t =>
      by_cases hc : (Nat.ble (acceptLo b0) b1 && Nat.ble b1 (acceptHi b0) && isCont b2) = true
      · simp only [isCont, Bool.and_eq_true, Nat.ble_eq] at hc
        exact Or.inr (Or.inr (Or.inr (Or.inl
          ⟨b1, b2, t, rfl, by omega, c4, hc.1.1, hc.1.2, hc.2.1, hc.2.2⟩)))
      · exact Or.inr (Or.inl (by
          simp only [decodeRune, c1, c2, c3, c4, if_false, if_true, hc]; rfl))
  by_cases c5 : b0 < 0xF5
  · match rest with
    | [] => exact Or.inr (Or.inl (by simp [decodeRune, c1, c2, c3, c4, c5]))
    | [_] => exact Or.inr (Or.inl (by simp [decodeRune, c1, c2, c3, c4, c5]))
    | [_, _] => exact Or.inr (Or.inl (by simp [decodeRune, c1, c2, c3, c4, c5]))
    | b1 :: b2 :: b3 :: t =>
      by_cases hc : (Nat.ble (acceptLo b0) b1 && Nat.ble b1 (acceptHi b0) && isCont b2
          && isCont b3) = true
      · simp only [isCont, Bool.and_eq_true, Nat.ble_eq] at hc
        exact Or.inr (Or.inr (Or.inr (Or.inr
          ⟨b1, b2, b3, t, rfl, by omega, c5, hc.1.1.1, hc.1.1.2, hc.1.2.1, hc.1.2.2, hc.2.1,
            hc.2.2⟩)))
      · exact Or.inr (Or.inl (by
          simp only [decodeRune, c1, c2, c3, c4, c5, if_false, if_true, hc]; rfl))
  · exact Or.inr (Or.inl (by simp [decodeRune, c1, c2, c3, c4, c5]))

theorem encodeRune_two (b0 b1 : Nat) (h0 : 0xC2 ≤ b0) (h0' : b0 < 0xE0)
    (h1 : 0x80 ≤ b1) (h1' : b1 ≤ 0xBF) :
    encodeRune ((b0 % 32) * 64 + b1 % 64) = [b0, b1] := by
  have a1 : ¬ (b0 % 32) * 64 + b1 % 64 < 0x80 := by omega
  have a2 : (b0 % 32) * 64 + b1 % 64 < 0x800 := by omega
  have e1 : 0xC0 + ((b0 % 32) * 64 + b1 % 64) / 64 = b0 := by omega
  have e2 : 0x80 + ((b0 % 32) * 64 + b1 % 64) % 64 = b1 := by omega
  simp only [encodeRune, a1, a2, if_false, if_true, e1, e2]

theorem encodeRune_three (b0 b1 b2 : Nat) (h0 : 0xE0 ≤ b0) (h0' : b0 < 0xF0)
    (h1 : acceptLo b0 ≤ b1) (h1' : b1 ≤ acceptHi b0) (h2 : 0x80 ≤ b2) (h2' : b2 ≤ 0xBF) :
    encodeRune ((b0 % 16) * 4096 + (b1 % 64) * 64 + b2 % 64) = [b0, b1, b2] := by
  have hlo : 0x80 ≤ b1 ∧ (b0 = 0xE0 → 0xA0 ≤ b1) := by
    unfold acceptLo at h1; split at h1 <;> (try split at h1) <;> omega
  have hhi : b1 ≤ 0xBF ∧ (b0 = 0xED → b1 ≤ 0x9F) := by
    unfold acceptHi at h1'; split at h1' <;> (try split at h1') <;> omega
  have a1 : ¬ (b0 % 16) * 4096 + (b1 % 64) * 64 + b2 % 64 < 0x80 := by omega
  have a2 : ¬ (b0 % 16) * 4096 + (b1 % 64) * 64 + b2 % 64 < 0x800 := by omega
  have a3 : ¬ (0x10FFFF < (b0 % 16) * 4096 + (b1 % 64) * 64 + b2 % 64 ∨
      (0xD800 ≤ (b0 % 16) * 4096 + (b1 % 64) * 64 + b2 % 64 ∧
        (b0 % 16) * 4096 + (b1 % 64) * 64 + b2 % 64 ≤ 0xDFFF)) := by omega
  have a4 : (b0 % 16) * 4096 + (b1 % 64) * 64 + b2 % 64 < 0x10000 := by omega
  have e1 : 0xE0 + ((b0 % 16) * 4096 + (b1 % 64) * 64 + b2 % 64) / 4096 = b0 := by omega
  have e2 : 0x80 + ((b0 % 16) * 4096 + (b1 % 64) * 64 + b2 % 64) / 64 % 64 = b1 := by omega
  have e3 : 0x80 + ((b0 % 16) * 4096 + (b1 % 64) * 64 + b2 % 64) % 64 = b2 := by omega
  simp only [encodeRune, a1, a2, a3, a4, if_false, if_true, e1, e2, e3]

theorem encodeRune_four (b0 b1 b2 b3 : Nat) (h0 : 0xF0 ≤ b0) (h0' : b0 < 0xF5)
    (h1 : acceptLo b0 ≤ b1) (h1' : b1 ≤ acceptHi b0) (h2 : 0x80 ≤ b2) (h2' : b2 ≤ 0xBF)
    (h3 : 0x80 ≤ b3) (h3' : b3 ≤ 0xBF) :
    encodeRune ((b0 % 8) * 262144 + (b1 % 64) * 4096 + (b2 % 64) * 64 + b3 % 64)
      = [b0, b1, b2, b3] := by
  have hlo : 0x80 ≤ b1 ∧ (b0 = 0xF0 → 0x90 ≤ b1) := by
    unfold acceptLo at h1; split at h1 <;> (try split at h1) <;> omega
  have hhi : b1 ≤ 0xBF ∧ (b0 = 0xF4 → b1 ≤ 0x8F) := by
    unfold acceptHi at h1'; split at h1' <;> (try split at h1') <;> omega
  have a1 : ¬ (b0 % 8) * 262144 + (b1 % 64) * 4096 + (b2 % 64) * 64 + b3 % 64 < 0x80 := by omega
  have a2 : ¬ (b0 % 8) * 262144 + (b1 % 64) * 4096 + (b2 % 64) * 64 + b3 % 64 < 0x800 := by
    omega
  have a3 : ¬ (0x10FFFF < (b0 % 8) * 262144 + (b1 % 64) * 4096 + (b2 % 64) * 64 + b3 % 64 ∨
      (0xD800 ≤ (b0 % 8) * 262144 + (b1 % 64) * 4096 + (b2 % 64) * 64 + b3 % 64 ∧
        (b0 % 8) * 262144 + (b1 % 64) * 4096 + (b2 % 64) * 64 + b3 % 64 ≤ 0xDFFF)) := by omega
  have a4 : ¬ (b0 % 8) * 262144 + (b1 % 64) * 4096 + (b2 % 64) * 64 + b3 % 64 < 0x10000 := by
    omega
  have e1 : 0xF0 + ((b0 % 8) * 262144 + (b1 % 64) * 4096 + (b2 % 64) * 64 + b3 % 64) / 262144
      = b0 := by omega
  have e2 : 0x80 + ((b0 % 8) * 262144 + (b1 % 64) * 4096 + (b2 % 64) * 64 + b3 % 64) / 4096 % 64
      = b1 := by omega
  have e3 : 0x80 + ((b0 % 8) * 262144 + (b1 % 64) * 4096 + (b2 % 64) * 64 + b3 % 64) / 64 % 64
      = b2 := by omega
  have e4 : 0x80 + ((b0 % 8) * 262144 + (b1 % 64) * 4096 + (b2 % 64) * 64 + b3 % 64) % 64
      = b3 := by omega
  simp only [encodeRune, a1, a2, a3, a4, if_false, if_true, e1, e2, e3, e4]

theorem goodChunk_nil : GoodChunk [] [] := by
  constructor
  · intro rest buf; simp
  · intro rest i; simp

theorem goodChunk_append (c1 o1 c2 o2 : GoString) (h1 : GoodChunk c1 o1)
    (h2 : GoodChunk c2 o2) : GoodChunk (c1 ++ c2) (o1 ++ o2) := by
  constructor
  · intro rest buf
    rw [List.append_assoc, h1.1, h2.1, List.append_assoc]
  · intro rest i
    rw [List.append_assoc, h1.2, h2.2, List.length_append, Nat.add_assoc]

theorem goodChunk_raw (b0 : Nat) (t : GoString) (r w : Nat) (h0 : 0x80 ≤ b0)
    (hcont : ∀ x ∈ b0 :: t, 0x80 ≤ x) (hw : w = (b0 :: t).length)
    (hdec : ∀ rest, decodeRune (b0 :: t ++ rest) = (r, w)) (hr : 0x80 ≤ r)
    (henc : encodeRune r = b0 :: t) : GoodChunk (b0 :: t) (b0 :: t) := by
  constructor
  · intro rest buf
    have hne : b0 ≠ 34 := by omega
    have hu : UnquoteChar (b0 :: (t ++ rest)) = some (r, true, w) := by
      have := hdec rest
      simp only [List.cons_append] at this
      simp [UnquoteChar, hne, h0, this]
    have := unquoteLoop_step b0 (t ++ rest) buf r true w hne (by omega) hu (by rw [hw]; simp)
    simp only [List.cons_append]
    rw [this, hw]
    have hlt : ¬ r < 128 := by omega
    simp [hlt, henc]
  · intro rest i
    have key : ∀ (l : GoString), (∀ x ∈ l, 0x80 ≤ x) → ∀ i,
        scanQuote (l ++ rest) i 0 = scanQuote rest (i + l.length) 0 := by
      intro l
      induction l with
      | nil => intro _ i; simp
      | cons x l ih =>
        intro hl i
        have hx : 0x80 ≤ x := hl x (by simp)
        have h34 : x ≠ 34 := by omega
        have h92 : x ≠ 92 := by omega
        have ih' := ih (fun y hy => hl y (by simp [hy])) (i + 1)
        simp only [List.cons_append, scanQuote, h34, h92, if_false, List.length_cons]
        have e : i + (l.length + 1) = i + 1 + l.length := by omega
        rw [e]
        exact ih'
    exact key _ hcont i

theorem appendEscapedRune_ascii_good (U : UnicodeTables) (b : Nat) (hb : b < 0x80) :
    GoodChunk (appendEscapedRune U b) [b] := by
  unfold appendEscapedRune
  by_cases h1 : b = 34 ∨ b = 92
  · rw [if_pos h1]; exact goodChunk_backslashed b h1
  rw [if_neg h1]
  simp only [hb, if_true]
  by_cases h2 : 0x20 ≤ b ∧ b < 0x7F
  · rw [if_pos h2]
    have : encodeRune b = [b] := by simp [encodeRune, hb]
    rw [this]
    exact goodChunk_ascii b h2.1 h2.2 (fun h => h1 (Or.inl h)) (fun h => h1 (Or.inr h))
  rw [if_neg h2]
  by_cases e7 : b = 7
  · rw [if_pos e7]; exact goodChunk_named 97 b (by simp [e7])
  rw [if_neg e7]
  by_cases e8 : b = 8
  · rw [if_pos e8]; exact goodChunk_named 98 b (by simp [e8])
  rw [if_neg e8]
  by_cases e12 : b = 12
  · rw [if_pos e12]; exact goodChunk_named 102 b (by simp [e12])
  rw [if_neg e12]
  by_cases e10 : b = 10
  · rw [if_pos e10]; exact goodChunk_named 110 b (by simp [e10])
  rw [if_neg e10]
  by_cases e13 : b = 13
  · rw [if_pos e13]; exact goodChunk_named 114 b (by simp [e13])
  rw [if_neg e13]
  by_cases e9 : b = 9
  · rw [if_pos e9]; exact goodChunk_named 116 b (by simp [e9])
  rw [if_neg e9]
  by_cases e11 : b = 11
  · rw [if_pos e11]; exact goodChunk_named 118 b (by simp [e11])
  rw [if_neg e11]
  have h3 : b < 32 ∨ b = 0x7F := by omega
  rw [if_pos h3]
  exact goodChunk_hexByte b (by omega)

theorem appendEscapedRune_multibyte_good (U : UnicodeTables) (r : Nat) (h1 : 0x80 ≤ r)
    (h2 : r ≤ 0x10FFFF) (hv : ValidRune r = true)
    (hraw : GoodChunk (encodeRune r) (encodeRune r)) :
    GoodChunk (appendEscapedRune U r) (encodeRune r) := by
  unfold appendEscapedRune
  have c1 : ¬ (r = 34 ∨ r = 92) := by omega
  have c2 : ¬ r < 0x80 := by omega
  rw [if_neg c1]
  simp only [c2, if_false]
  by_cases hp : U.isPrint r = true
  · rw [if_pos hp]; exact hraw
  rw [if_neg hp]
  have n7 : ¬ r = 7 := by omega
  have n8 : ¬ r = 8 := by omega
  have n12 : ¬ r = 12 := by omega
  have n10 : ¬ r = 10 := by omega
  have n13 : ¬ r = 13 := by omega
  have n9 : ¬ r = 9 := by omega
  have n11 : ¬ r = 11 := by omega
  have n32 : ¬ (r < 32 ∨ r = 0x7F) := by omega
  simp only [n7, n8, n12, n10, n13, n9, n11, n32, if_false, hv, if_true]
  by_cases hs : r < 0x10000
  · rw [if_pos hs]; exact goodChunk_u r h1 hs hv
  · rw [if_neg hs]; exact goodChunk_U r (by omega) h2

/-- The escaped form that `Quote` writes for the first rune of `b :: t` stands
for the bytes of that rune. -/
theorem quoteChunk_good (U : UnicodeTables) (b : Nat) (t : GoString) (hb : b < 256) :
    GoodChunk
      (if (decodeRune (b :: t)).2 = 1 ∧ (decodeRune (b :: t)).1 = RuneError then
        [92, 120, lowerhex (b / 16), lowerhex (b % 16)]
      else appendEscapedRune U (decodeRune (b :: t)).1)
      ((b :: t).take (decodeRune (b :: t)).2) ∧ 1 ≤ (decodeRune (b :: t)).2 := by
  rcases decodeRune_cases b t with ⟨hlt, hd⟩ | hd | ⟨b1, t', rfl, h0, h0', h1, h1'⟩ |
    ⟨b1, b2, t', rfl, h0, h0', h1, h1', h2, h2'⟩ |
    ⟨b1, b2, b3, t', rfl, h0, h0', h1, h1', h2, h2', h3, h3'⟩
  · rw [hd]
    rw [if_neg (fun h => by have := h.2; simp only [RuneError] at this; omega)]
    simp only [List.take_succ_cons, List.take_zero]
    exact ⟨appendEscapedRune_ascii_good U b hlt, le_refl _⟩
  · rw [hd]
    rw [if_pos ⟨rfl, rfl⟩]
    simp only [List.take_succ_cons, List.take_zero]
    exact ⟨goodChunk_hexByte b hb, le_refl _⟩
  · have hd := decodeRune_two b b1 t' h0 h0' h1 h1'
    have he := encodeRune_two b b1 h0 h0' h1 h1'
    rw [hd]
    rw [if_neg (fun h => by have := h.1; simp at this)]
    simp only [List.take_succ_cons, List.take_zero]
    have hr : 0x80 ≤ (b % 32) * 64 + b1 % 64 := by omega
    have hr2 : (b % 32) * 64 + b1 % 64 ≤ 0x10FFFF := by omega
    have hv : ValidRune ((b % 32) * 64 + b1 % 64) = true := by
      have : (b % 32) * 64 + b1 % 64 < 0xD800 := by omega
      simp [ValidRune, this]
    have hraw : GoodChunk [b, b1] [b, b1] :=
      goodChunk_raw b [b1] _ 2 (by omega)
        (by intro x hx; simp at hx; rcases hx with rfl | rfl <;> omega) rfl
        (fun rest => decodeRune_two b b1 rest h0 h0' h1 h1') hr he
    refine ⟨?_, by omega⟩
    have := appendEscapedRune_multibyte_good U _ hr hr2 hv (by rw [he]; exact hraw)
    rwa [he] at this
  · have hd := decodeRune_three b b1 b2 t' h0 h0' h1 h1' h2 h2'
    have he := encodeRune_three b b1 b2 h0 h0' h1 h1' h2 h2'
    have hlo : 0x80 ≤ b1 ∧ (b = 0xE0 → 0xA0 ≤ b1) := by
      unfold acceptLo at h1; split at h1 <;> (try split at h1) <;> omega
    have hhi : b1 ≤ 0xBF ∧ (b = 0xED → b1 ≤ 0x9F) := by
      unfold acceptHi at h1'; split at h1' <;> (try split at h1') <;> omega
    rw [hd]
    rw [if_neg (fun h => by have := h.1; simp at this)]
    simp only [List.take_succ_cons, List.take_zero]
    have hr : 0x80 ≤ (b % 16) * 4096 + (b1 % 64) * 64 + b2 % 64 := by omega
    have hr2 : (b % 16) * 4096 + (b1 % 64) * 64 + b2 % 64 ≤ 0x10FFFF := by omega
    have hv : ValidRune ((b % 16) * 4096 + (b1 % 64) * 64 + b2 % 64) = true := by
      have : (b % 16) * 4096 + (b1 % 64) * 64 + b2 % 64 < 0xD800 ∨
          (0xDFFF < (b % 16) * 4096 + (b1 % 64) * 64 + b2 % 64 ∧
            (b % 16) * 4096 + (b1 % 64) * 64 + b2 % 64 ≤ 0x10FFFF) := by omega
      rcases this with h | ⟨h, h'⟩
      · simp [ValidRune, h]
      · simp [ValidRune, h, h']
    have hraw : GoodChunk [b, b1, b2] [b, b1, b2] :=
      goodChunk_raw b [b1, b2] _ 3 (by omega)
        (by intro x hx; simp at hx; rcases hx with rfl | rfl | rfl <;> omega) rfl
        (fun rest => decodeRune_three b b1 b2 rest h0 h0' h1 h1' h2 h2') hr he
    refine ⟨?_, by omega⟩
    have := appendEscapedRune_multibyte_good U _ hr hr2 hv (by rw [he]; exact hraw)
    rwa [he] at this
  · have hd := decodeRune_four b b1 b2 b3 t' h0 h0' h1 h1' h2 h2' h3 h3'
    have he := encodeRune_four b b1 b2 b3 h0 h0' h1 h1' h2 h2' h3 h3'
    have hlo : 0x80 ≤ b1 ∧ (b = 0xF0 → 0x90 ≤ b1) := by
      unfold acceptLo at h1; split at h1 <;> (try split at h1) <;> omega
    have hhi : b1 ≤ 0xBF ∧ (b = 0xF4 → b1 ≤ 0x8F) := by
      unfold acceptHi at h1'; split at h1' <;> (try split at h1') <;> omega
    rw [hd]
    rw [if_neg (fun h => by have := h.1; simp at this)]
    simp only [List.take_succ_cons, List.take_zero]
    have hr : 0x10000 ≤ (b % 8) * 262144 + (b1 % 64) * 4096 + (b2 % 64) * 64 + b3 % 64 := by
      omega
    have hr2 : (b % 8) * 262144 + (b1 % 64) * 4096 + (b2 % 64) * 64 + b3 % 64 ≤ 0x10FFFF := by
      omega
    have hv : ValidRune ((b % 8) * 262144 + (b1 % 64) * 4096 + (b2 % 64) * 64 + b3 % 64)
        = true := by
      have h : 0xDFFF < (b % 8) * 262144 + (b1 % 64) * 4096 + (b2 % 64) * 64 + b3 % 64 := by
        omega
      simp [ValidRune, h, hr2]
    have hraw : GoodChunk [b, b1, b2, b3] [b, b1, b2, b3] :=
      goodChunk_raw b [b1, b2, b3] _ 4 (by omega)
        (by intro x hx; simp at hx; rcases hx with rfl | rfl | rfl | rfl <;> omega) rfl
        (fun rest => decodeRune_four b b1 b2 b3 rest h0 h0' h1 h1' h2 h2' h3 h3')
        (by omega) he
    refine ⟨?_, by omega⟩
    have := appendEscapedRune_multibyte_good U _ (by omega) hr2 hv (by rw [he]; exact hraw)
    rwa [he] at this

/-- The body that `Quote` writes for `d` stands for `d`. -/
theorem quoteBody_good (U : UnicodeTables) :
    ∀ (n : Nat) (d : GoString), d.length ≤ n → (∀ b ∈ d, b < 256) →
      GoodChunk (quoteBody U d 0) d := by
  intro n
  induction n with
  | zero =>
    intro d hlen _
    have : d = [] := List.length_eq_zero.1 (by omega)
    subst this
    exact goodChunk_nil
  | succ n ih =>
    intro d hlen hb
    cases d with
    | nil => exact goodChunk_nil
    | cons b t =>
      obtain ⟨hg, hw⟩ := quoteChunk_good U b t (hb b (by simp))
      obtain ⟨w', hw'⟩ : ∃ w', (decodeRune (b :: t)).2 = w' + 1 :=
        ⟨(decodeRune (b :: t)).2 - 1, by omega⟩
      rw [quoteBody, quoteBody_skip]
      have hrest := ih (t.drop ((decodeRune (b :: t)).2 - 1))
        (by simp at hlen ⊢; omega)
        (fun x hx => hb x (List.mem_cons_of_mem _ (List.mem_of_mem_drop hx)))
      have := goodChunk_append _ _ _ _ hg hrest
      have hsplit : (b :: t).take (decodeRune (b :: t)).2
          ++ t.drop ((decodeRune (b :: t)).2 - 1) = b :: t := by
        rw [hw']
        simp
      rw [hsplit] at this
      exact this


theorem scanQuote_quoted (qb d r : GoString) (hgood : GoodChunk qb d) :
    scanQuote ((qb ++ [34]) ++ r) 2 0 = 2 + qb.length := by
  rw [List.append_assoc, hgood.2]
  simp [scanQuote]

theorem Unquote_quoted (qb d : GoString) (hgood : GoodChunk qb d) :
    Unquote (34 :: (qb ++ [34])) = some d := by
  simp only [Unquote]
  rw [hgood.1]
  simp [unquoteLoop]

theorem parseFieldTag_cons (pfx : Nat) (tl : GoString) :
    parseFieldTag (pfx :: tl) =
      if pfx ≠ 33 ∧ pfx ≠ 63 ∧ pfx ≠ 61 then ([], TrimSpace (pfx :: tl), pfx)
      else if pfx = 61 ∧ (pfx :: tl).length < 3 then ([], TrimSpace (pfx :: tl), pfx)
      else if 1 < (pfx :: tl).length ∧ (pfx :: tl).getD 1 0 = 34 then
        if (pfx :: tl).length ≤ scanQuote ((pfx :: tl).drop 2) 2 0 then
          ([], TrimSpace (pfx :: tl), pfx)
        else (((Unquote (((pfx :: tl).take
            (scanQuote ((pfx :: tl).drop 2) 2 0 + 1)).drop 1)).getD []),
          TrimSpace ((pfx :: tl).drop (scanQuote ((pfx :: tl).drop 2) 2 0 + 1)), pfx)
      else ([], TrimSpace ((pfx :: tl).drop 1), pfx) := rfl

theorem parseFieldTag_quoted (m : Nat) (qb d r : GoString)
    (hm : m = 33 ∨ m = 63 ∨ m = 61) (hgood : GoodChunk qb d) :
    parseFieldTag (m :: (34 :: (qb ++ [34]) ++ r)) = (d, TrimSpace r, m) := by
  have hscan := scanQuote_quoted qb d r hgood
  have hunq := Unquote_quoted qb d hgood
  have c1 : ¬ (m ≠ 33 ∧ m ≠ 63 ∧ m ≠ 61) := by omega
  have hlen : (m :: (34 :: (qb ++ [34]) ++ r)).length = qb.length + 3 + r.length := by
    simp only [List.length_cons, List.length_append, List.length_nil]; omega
  have c2 : ¬ (m = 61 ∧ (m :: (34 :: (qb ++ [34]) ++ r)).length < 3) := by
    rw [hlen]; omega
  have c3 : 1 < (m :: (34 :: (qb ++ [34]) ++ r)).length ∧
      (m :: (34 :: (qb ++ [34]) ++ r)).getD 1 0 = 34 := by
    rw [hlen]; exact ⟨by omega, rfl⟩
  have hdrop2 : (m :: (34 :: (qb ++ [34]) ++ r)).drop 2 = (qb ++ [34]) ++ r := rfl
  have c4 : ¬ (m :: (34 :: (qb ++ [34]) ++ r)).length ≤ 2 + qb.length := by
    rw [hlen]; omega
  have hP : (m :: 34 :: (qb ++ [34])).length = 2 + qb.length + 1 := by
    simp only [List.length_cons, List.length_append, List.length_nil]; omega
  have htake : (m :: (34 :: (qb ++ [34]) ++ r)).take (2 + qb.length + 1)
      = m :: 34 :: (qb ++ [34]) := by
    rw [← hP]; exact List.take_left' rfl
  have hdropi : (m :: (34 :: (qb ++ [34]) ++ r)).drop (2 + qb.length + 1) = r := by
    rw [← hP]; exact List.drop_left' rfl
  rw [parseFieldTag_cons, if_neg c1, if_neg c2, if_pos c3, hdrop2, hscan, if_neg c4,
    htake, hdropi]
  show ((Unquote (34 :: (qb ++ [34]))).getD [], TrimSpace r, m) = _
  rw [hunq]
  rfl

/-- C8: for a marker `m` among `!`, `?`, `=`, a string `d` and a text `r`,
`parseFieldTag` applied to `m`, then the double-quoted literal `Quote d`, then
`r`, returns the default `d`, the description `TrimSpace r` and the marker `m`;
and `NewValueBinding` with that default on a string field (holding the zero
value when `d` is empty) returns a string binding whose `String()` is `d`. -/
theorem parseFieldTag_roundtrip (U : UnicodeTables) (m : Nat) (d r : GoString)
    (hm : m = 33 ∨ m = 63 ∨ m = 61) (hd : ∀ b ∈ d, b < 256) :
    parseFieldTag (m :: (Quote U d ++ r)) = (d, TrimSpace r, m) ∧
      ∀ (i : Nat) (st : Store) (s0 : GoString), st[i]? = some (.str s0) → (d = [] → s0 = []) →
        ∃ st', NewValueBinding i .string (parseFieldTag (m :: (Quote U d ++ r))).1 st
            = .ok (some (.stringValue i), st') ∧
          (Binding.stringValue i).String st' = d := by
  have hp : parseFieldTag (m :: (Quote U d ++ r)) = (d, TrimSpace r, m) :=
    parseFieldTag_quoted m (quoteBody U d 0) d r hm (quoteBody_good U d.length d (Nat.le_refl _) hd)
  refine ⟨hp, ?_⟩
  intro i st s0 hi h0
  rw [hp]
  have hlt : i < st.length := by
    rcases Nat.lt_or_ge i st.length with h | h
    · exact h
    · rw [List.getElem?_eq_none h] at hi; cases hi
  by_cases hde : d = []
  · refine ⟨st, ?_, ?_⟩
    · simp [NewValueBinding, hde]
    · have hs : st.getD i .other = .str s0 := by
        rw [List.getD_eq_getElem?_getD, hi]; rfl
      simp only [Binding.String, hs]
      rw [hde, h0 hde]
  · refine ⟨st.set i (.str d), ?_, ?_⟩
    · simp [NewValueBinding, hde, Binding.Set, Outcome.bind]
    · have hs : (st.set i (.str d)).getD i .other = .str d := by
        rw [List.getD_eq_getElem?_getD, List.getElem?_set_self hlt]; rfl
      simp only [Binding.String, hs]

theorem parseFieldTag_roundtrip_witness :
    (61 = 33 ∨ 61 = 63 ∨ 61 = 61) ∧ (∀ b ∈ lit "John", b < 256) ∧
      Quote asciiTables (lit "John") = lit "\"John\"" ∧
      TrimSpace (lit " Name of a cool person") = lit "Name of a cool person" ∧
      parseFieldTag (61 :: (Quote asciiTables (lit "John") ++ lit " Name of a cool person"))
        = (lit "John", TrimSpace (lit " Name of a cool person"), 61) ∧
      ∀ (i : Nat) (st : Store) (s0 : GoString), st[i]? = some (.str s0) →
        (lit "John" = [] → s0 = []) →
        ∃ st', NewValueBinding i .string
            (parseFieldTag
              (61 :: (Quote asciiTables (lit "John") ++ lit " Name of a cool person"))).1 st
            = .ok (some (.stringValue i), st') ∧
          (Binding.stringValue i).String st' = lit "John" :=
  ⟨by decide, by decide, by decide, by decide,
    parseFieldTag_roundtrip asciiTables 61 (lit "John") (lit " Name of a cool person")
      (by decide) (by decide)⟩


/-- C11, counterexample: on the tag that opens with the literal `"John"` and
carries no role marker, `parseFieldTag` returns the empty default, the whole tag
as the description and the double quote as the prefix byte. -/
theorem parseFieldTag_unmarked_John :
    parseFieldTag (lit "\"John\" Name of a person")
        = ([], lit "\"John\" Name of a person", 34) ∧
      (parseFieldTag (lit "\"John\" Name of a person")).1 ≠ lit "John" ∧
      (parseFieldTag (lit "\"John\" Name of a person")).2.1 ≠ lit "Name of a person" := by
  decide

/-- C11 (amended): for every tag that opens with a double quote, so with no role
marker, whatever literal and text follow, `parseFieldTag` returns the empty
default, the whole tag with surrounding whitespace trimmed as the description
and the double quote as the prefix byte; `processField` registers the field as
a flag with no explicit default and that description. -/
theorem parseFieldTag_unmarked_quoted (U : UnicodeTables) (cmd : Command) (i : Nat)
    (name : GoString) (k : Kind) (t : GoString) :
    parseFieldTag (34 :: t) = ([], TrimSpace (34 :: t), 34) ∧
      cmd.processField U i ⟨name, 34 :: t, k⟩
        = (translateFieldName U name).bind fun n =>
            cmd.addOption i k n [] (TrimSpace (34 :: t)) := by
  have hp : parseFieldTag (34 :: t) = ([], TrimSpace (34 :: t), 34) := by
    rw [parseFieldTag_cons, if_pos (by decide)]
  refine ⟨hp, ?_⟩
  simp only [Command.processField, hp]
  rfl

theorem scanQuote_unterminated :
    ∀ (n : Nat) (t : GoString) (i : Nat), t.length ≤ n → hasClosingQuote t = false →
      i + t.length ≤ scanQuote t i 0 := by
  intro n
  induction n using Nat.strong_induction_on with
  | _ n ih =>
    intro t i hlen hq
    cases t with
    | nil => simp [scanQuote]
    | cons b t =>
      unfold hasClosingQuote at hq
      by_cases h34 : b = 34
      · rw [if_pos h34] at hq; cases hq
      · rw [if_neg h34] at hq
        rw [scanQuote, if_neg h34]
        simp only [List.length_cons] at hlen ⊢
        by_cases h92 : b = 92
        · rw [if_pos h92] at hq
          rw [if_pos h92]
          cases t with
          | nil => simp [scanQuote]
          | cons c t2 =>
            simp only at hq
            rw [scanQuote]
            simp only [List.length_cons] at hlen ⊢
            have := ih (n - 2) (by omega) t2 (i + 1 + 1) (by omega) hq
            omega
        · rw [if_neg h92] at hq
          rw [if_neg h92]
          have := ih (n - 1) (by omega) t (i + 1) (by omega) hq
          omega

/-- C12, counterexample: on the tag `!"abc`, whose quote is never closed,
`parseFieldTag` returns the prefix byte `!`, and `NewCommand` registers the
field as a required positional parameter; a trailing blank of the tag is not
part of the description. -/
theorem parseFieldTag_unterminated_abc :
    parseFieldTag (lit "!\"abc") = ([], lit "!\"abc", 33) ∧
      parseFieldTag (lit "!\"abc ") = ([], lit "!\"abc", 33) ∧
      (parseFieldTag (lit "!\"abc ")).2.1 ≠ lit "!\"abc " ∧
      ∃ c, NewCommand asciiTables (lit "hello") (lit "Say hello")
            (.params (.elemStruct [⟨lit "Name", lit "!\"abc", .string⟩]) true) = .ok c ∧
        c.Args = [⟨lit "name", lit "!\"abc", false, .stringValue 0⟩] ∧
        c.Options.formal = [] :=
  ⟨by decide, by decide, by decide, _, rfl, rfl, rfl⟩

/-- C12 (amended): for every tag that starts with `!`, `?` or `=` directly
followed by a double quote that no later unescaped double quote closes,
`parseFieldTag` returns the empty default, the whole tag with surrounding
whitespace trimmed as the description, and the leading byte as the role marker;
`processField` therefore registers a field marked `!` or `?` as a positional
parameter (required or optional) and a field marked `=` as a flag, with no
explicit default. -/
theorem parseFieldTag_unterminated (U : UnicodeTables) (cmd : Command) (i : Nat)
    (name : GoString) (k : Kind) (m : Nat) (t : GoString)
    (hm : m = 33 ∨ m = 63 ∨ m = 61) (hq : hasClosingQuote t = false) :
    parseFieldTag (m :: 34 :: t) = ([], TrimSpace (m :: 34 :: t), m) ∧
      (m = 33 → cmd.processField U i ⟨name, m :: 34 :: t, k⟩
        = (translateFieldName U name).bind fun n =>
            cmd.addArg i k false n [] (TrimSpace (m :: 34 :: t))) ∧
      (m = 63 → cmd.processField U i ⟨name, m :: 34 :: t, k⟩
        = (translateFieldName U name).bind fun n =>
            cmd.addArg i k true n [] (TrimSpace (m :: 34 :: t))) ∧
      (m = 61 → cmd.processField U i ⟨name, m :: 34 :: t, k⟩
        = (translateFieldName U name).bind fun n =>
            cmd.addOption i k n [] (TrimSpace (m :: 34 :: t))) := by
  have hs := scanQuote_unterminated t.length t 2 (Nat.le_refl _) hq
  have hp : parseFieldTag (m :: 34 :: t) = ([], TrimSpace (m :: 34 :: t), m) := by
    rw [parseFieldTag_cons, if_neg (by omega)]
    by_cases c2 : m = 61 ∧ (m :: 34 :: t).length < 3
    · rw [if_pos c2]
    · rw [if_neg c2, if_pos ⟨by simp, rfl⟩]
      have hd : (m :: 34 :: t).drop 2 = t := rfl
      rw [hd, if_pos (by simp only [List.length_cons]; omega)]
  refine ⟨hp, ?_, ?_, ?_⟩
  · intro h
    subst h
    simp only [Command.processField, hp]
    rfl
  · intro h
    subst h
    simp only [Command.processField, hp]
    rfl
  · intro h
    subst h
    simp only [Command.processField, hp]
    rfl

theorem parseFieldTag_unterminated_witness :
    (33 = 33 ∨ 33 = 63 ∨ 33 = 61) ∧ hasClosingQuote (lit "abc") = false ∧
      33 :: 34 :: lit "abc" = lit "!\"abc" ∧
      parseFieldTag (33 :: 34 :: lit "abc") = ([], TrimSpace (33 :: 34 :: lit "abc"), 33) ∧
      (33 = 33 → boolArgCommand.processField asciiTables 1 ⟨lit "Name", 33 :: 34 :: lit "abc", .string⟩
        = (translateFieldName asciiTables (lit "Name")).bind fun n =>
            boolArgCommand.addArg 1 .string false n [] (TrimSpace (33 :: 34 :: lit "abc"))) ∧
      (33 = 63 → boolArgCommand.processField asciiTables 1 ⟨lit "Name", 33 :: 34 :: lit "abc", .string⟩
        = (translateFieldName asciiTables (lit "Name")).bind fun n =>
            boolArgCommand.addArg 1 .string true n [] (TrimSpace (33 :: 34 :: lit "abc"))) ∧
      (33 = 61 → boolArgCommand.processField asciiTables 1 ⟨lit "Name", 33 :: 34 :: lit "abc", .string⟩
        = (translateFieldName asciiTables (lit "Name")).bind fun n =>
            boolArgCommand.addOption 1 .string n [] (TrimSpace (33 :: 34 :: lit "abc"))) :=
  ⟨by decide, by decide, by decide,
    parseFieldTag_unterminated asciiTables boolArgCommand 1 (lit "Name") .string 33 (lit "abc")
      (by decide) (by decide)⟩

set_option smartUnfolding false in
set_option maxRecDepth 100000 in
/-- C13 (the code departs from the claim): on `Foo_bar` and on `Foo__` the first
pass matches at the start of the name and writes a hyphen in front of it, which
nothing removes: `translateFieldName` returns `-foo-bar` and `-foo`, names that
begin with a hyphen; on `FooBar_baz` it returns `foo-bar-baz`. -/
theorem translateFieldName_leading_hyphen (U : UnicodeTables) :
    translateFieldName U (lit "Foo_bar") = .ok (lit "-foo-bar") ∧
      translateFieldName U (lit "Foo__") = .ok (lit "-foo") ∧
      translateFieldName U (lit "FooBar_baz") = .ok (lit "foo-bar-baz") ∧
      (lit "-foo-bar").head? = some 45 ∧ (lit "-foo").head? = some 45 :=
  ⟨rfl, rfl, rfl, rfl, rfl⟩


end Cmdr
